import Mathlib

/-!
Verification of the Gemini schema-sanitizer proxy.

The development shallowly embeds the proxy's pure logic:
JSON values are a mutual inductive (`Json`, `JList`, `JFields`), JavaScript
object field access / update / delete become `getKey` / `setKey` / `eraseKey`
over ordered field lists (first occurrence wins, matching JS objects whose
keys are unique), and JS truthiness becomes `jsTruthy`.  Recursive traversals
are defined with an explicit fuel parameter driven by the structural size
`jsize`, so that every definition is executable and reduces in the kernel;
a monotonicity lemma shows fuel at least `jsize` is always enough.
-/

mutual
inductive Json where
  | null
  | bool (b : Bool)
  | num (n : Int)
  | str (s : String)
  | arr (elems : JList)
  | obj (fields : JFields)
inductive JList where
  | nil
  | cons (head : Json) (tail : JList)
inductive JFields where
  | nil
  | cons (key : String) (value : Json) (tail : JFields)
end
deriving instance DecidableEq for Json, JList, JFields

/-- Builds a `JFields` from a Lean list literal, for concrete test values. -/
def jf : List (String × Json) → JFields
  | [] => .nil
  | p :: rest => .cons p.1 p.2 (jf rest)

/-- Builds a `JList` from a Lean list literal, for concrete test values. -/
def jl : List Json → JList
  | [] => .nil
  | x :: rest => .cons x (jl rest)

/-- JavaScript truthiness of a JSON value (null, false, 0 and "" are falsy). -/
def jsTruthy : Json → Bool
  | .null => false
  | .bool b => b
  | .num n => n != 0
  | .str s => s != ""
  | .arr _ => true
  | .obj _ => true

mutual
/-- Structural size of a JSON value, used as fuel for recursive traversals. -/
def jsize : Json → Nat
  | .null => 1
  | .bool _ => 1
  | .num _ => 1
  | .str _ => 1
  | .arr xs => 1 + lsize xs
  | .obj fs => 1 + fsize fs
/-- Structural size of a JSON list. -/
def lsize : JList → Nat
  | .nil => 0
  | .cons x xs => jsize x + lsize xs
/-- Structural size of a JSON field list. -/
def fsize : JFields → Nat
  | .nil => 0
  | .cons _ v rest => jsize v + fsize rest
end

/-- Property read `o[k]`: the first field named `k`, if any. -/
def getKey : JFields → String → Option Json
  | .nil, _ => none
  | .cons k' v rest, k => if k' = k then some v else getKey rest k

/-- Property delete `delete o[k]`. -/
def eraseKey : JFields → String → JFields
  | .nil, _ => .nil
  | .cons k' v rest, k => if k' = k then eraseKey rest k else .cons k' v (eraseKey rest k)

/-- Property write `o[k] = v`: update in place, else append. -/
def setKey : JFields → String → Json → JFields
  | .nil, k, v => .cons k v .nil
  | .cons k' v' rest, k, v =>
    if k' = k then .cons k v rest else .cons k' v' (setKey rest k v)

/-- A value occurs among the fields' values. -/
def FHasVal : JFields → Json → Prop
  | .nil, _ => False
  | .cons _ w rest, v => w = v ∨ FHasVal rest v

/-- A value occurs in a JSON list. -/
def LHasVal : JList → Json → Prop
  | .nil, _ => False
  | .cons x xs, v => x = v ∨ LHasVal xs v

theorem jsize_pos (j : Json) : 0 < jsize j := by
  cases j <;> simp [jsize]

theorem getKey_fhasval {k : String} {v : Json} :
    ∀ {fs : JFields}, getKey fs k = some v → FHasVal fs v
  | .nil, h => by simp [getKey] at h
  | .cons k' w rest, h => by
    simp only [getKey] at h
    by_cases hk : k' = k
    · simp [hk] at h
      exact Or.inl h
    · simp [hk] at h
      exact Or.inr (getKey_fhasval h)

theorem fhasval_jsize {v : Json} :
    ∀ {fs : JFields}, FHasVal fs v → jsize v ≤ fsize fs
  | .nil, h => absurd h (by simp [FHasVal])
  | .cons k w rest, h => by
    rcases h with h | h
    · subst h; simp only [fsize]; omega
    · have := fhasval_jsize h; simp only [fsize]; omega

theorem lhasval_jsize {v : Json} :
    ∀ {xs : JList}, LHasVal xs v → jsize v ≤ lsize xs
  | .nil, h => absurd h (by simp [LHasVal])
  | .cons x rest, h => by
    rcases h with h | h
    · subst h; simp only [lsize]; omega
    · have := lhasval_jsize h; simp only [lsize]; omega

theorem getKey_jsize {fs : JFields} {k : String} {v : Json}
    (h : getKey fs k = some v) : jsize v ≤ fsize fs :=
  fhasval_jsize (getKey_fhasval h)

theorem getKey_eraseKey_self (k : String) :
    ∀ (l : JFields), getKey (eraseKey l k) k = none
  | .nil => by simp [eraseKey, getKey]
  | .cons k' v rest => by
    have ih := getKey_eraseKey_self k rest
    simp only [eraseKey]
    by_cases hk : k' = k
    · simp [hk, ih]
    · simp [getKey, hk, ih]

theorem getKey_eraseKey_ne {k k' : String} (h : k ≠ k') :
    ∀ (l : JFields), getKey (eraseKey l k') k = getKey l k
  | .nil => rfl
  | .cons k'' v rest => by
    have ih := getKey_eraseKey_ne h rest
    simp only [eraseKey, getKey]
    by_cases hk : k'' = k'
    · subst hk
      simp [Ne.symm h, ih]
    · simp [getKey, hk, ih]

theorem getKey_setKey_self (k : String) (v : Json) :
    ∀ (l : JFields), getKey (setKey l k v) k = some v
  | .nil => by simp [setKey, getKey]
  | .cons k' v' rest => by
    have ih := getKey_setKey_self k v rest
    simp only [setKey]
    by_cases hk : k' = k
    · simp [hk, getKey]
    · simp [getKey, hk, ih]

theorem getKey_setKey_ne {k k' : String} (h : k ≠ k') (v : Json) :
    ∀ (l : JFields), getKey (setKey l k' v) k = getKey l k
  | .nil => by simp [setKey, getKey, Ne.symm h]
  | .cons k'' v' rest => by
    have ih := getKey_setKey_ne h v rest
    simp only [setKey, getKey]
    by_cases hk : k'' = k'
    · subst hk
      simp [Ne.symm h, getKey]
    · simp [getKey, hk, ih]

theorem eraseKey_of_getKey_none {k : String} :
    ∀ {l : JFields}, getKey l k = none → eraseKey l k = l
  | .nil, _ => by simp [eraseKey]
  | .cons k' v rest, h => by
    simp only [getKey] at h
    by_cases hk : k' = k
    · simp [hk] at h
    · simp [hk] at h
      simp [eraseKey, hk, eraseKey_of_getKey_none h]

theorem setKey_of_getKey_some {k : String} {v : Json} :
    ∀ {l : JFields}, getKey l k = some v → setKey l k v = l
  | .nil, h => by simp [getKey] at h
  | .cons k' v' rest, h => by
    simp only [getKey] at h
    by_cases hk : k' = k
    · simp [hk] at h
      simp [setKey, hk, h]
    · simp [hk] at h
      simp [setKey, hk, setKey_of_getKey_some h]

/-!
The schema sanitizer of `src/unnamed/part_000` (`sanitizeSchema`, lines
93-182).  The JS function copies the node, deletes a fixed set of
unsupported keys, conditionally rewrites `format`, `type`, `nullable`,
`additionalProperties`, `required` and the numeric bounds, and finally
recurses into `properties`, `items` and `additionalProperties`.
-/

/-- Keys deleted unconditionally by the sanitizer (the 22 `delete` lines). -/
def geminiBannedKeys : List String :=
  ["$ref", "$schema", "$id", "definitions", "$defs",
   "anyOf", "oneOf", "allOf", "not",
   "exclusiveMaximum", "exclusiveMinimum", "const", "contentEncoding", "contentMediaType",
   "prefixItems", "contains", "minContains", "maxContains",
   "propertyNames", "patternProperties", "dependentSchemas", "dependentRequired"]

/-- Applies `eraseKey` for each key of a list in order. -/
def dropKeys : JFields → List String → JFields
  | fs, [] => fs
  | fs, k :: ks => dropKeys (eraseKey fs k) ks

/-- The unconditional `delete` block of the sanitizer. -/
def dropBannedKeys (fs : JFields) : JFields :=
  dropKeys fs geminiBannedKeys

/-- Whether a JSON list contains the string "null" (`clean.type.includes('null')`). -/
def hasNullType : JList → Bool
  | .nil => false
  | .cons x xs => (x = Json.str "null") || hasNullType xs

/-- First element different from the string "null" (`clean.type.find(t => t !== 'null')`). -/
def findNonNull : JList → Option Json
  | .nil => none
  | .cons x xs => if x = Json.str "null" then findNonNull xs else some x

/-- The `format` rule: kept only when falsy or exactly "enum" / "date-time". -/
def formatStep (l : JFields) : JFields :=
  match getKey l "format" with
  | some f =>
    if jsTruthy f ∧ f ≠ Json.str "enum" ∧ f ≠ Json.str "date-time"
    then eraseKey l "format" else l
  | none => l

/-- The `type`-array collapse: first truthy non-"null" entry becomes the type
(setting `nullable` when "null" was present), else the type falls back to "string". -/
def typeStep (l : JFields) : JFields :=
  match getKey l "type" with
  | some (.arr ts) =>
    match findNonNull ts with
    | some t =>
      if jsTruthy t then
        if hasNullType ts
        then setKey (setKey l "type" t) "nullable" (.bool true)
        else setKey l "type" t
      else setKey l "type" (.str "string")
    | none => setKey l "type" (.str "string")
  | _ => l

/-- Deletes `additionalProperties` when it is exactly `false`. -/
def apFalseStep (l : JFields) : JFields :=
  if getKey l "additionalProperties" = some (.bool false)
  then eraseKey l "additionalProperties" else l

/-- Deletes `required` when it is an empty array. -/
def requiredStep (l : JFields) : JFields :=
  match getKey l "required" with
  | some (.arr .nil) => eraseKey l "required"
  | _ => l

/-- Deletes `minimum`/`maximum`/`multipleOf` when `type` is truthy and not
exactly "number" or "integer". -/
def minMaxStep (l : JFields) : JFields :=
  match getKey l "type" with
  | some t =>
    if jsTruthy t ∧ t ≠ Json.str "number" ∧ t ≠ Json.str "integer"
    then eraseKey (eraseKey (eraseKey l "minimum") "maximum") "multipleOf" else l
  | none => l

/-- The non-recursive rewrite pipeline, in source order. -/
def nonRecSteps (fs : JFields) : JFields :=
  minMaxStep (requiredStep (apFalseStep (typeStep (formatStep (dropBannedKeys fs)))))

/-- Maps a function over the values of a field list (`props[key] = rec value`). -/
def mapVals (rec : Json → Json) : JFields → JFields
  | .nil => .nil
  | .cons k v rest => .cons k (rec v) (mapVals rec rest)

/-- The field list `Object.entries` produces from an array: decimal index keys
"0", "1", ... with the mapped values. -/
def indexedVals (rec : Json → Json) (start : Nat) : JList → JFields
  | .nil => .nil
  | .cons x xs => .cons (toString start) (rec x) (indexedVals rec (start + 1) xs)

/-- Recursion into `properties`.  The source reads `clean.properties` at this
point; none of the earlier steps touches the "properties" key, so reading it
from the original fields is the same value. -/
def propsPart (rec : Json → Json) (fs l : JFields) : JFields :=
  match getKey fs "properties" with
  | some (.obj pfs) => setKey l "properties" (.obj (mapVals rec pfs))
  | some (.arr ps) => setKey l "properties" (.obj (indexedVals rec 0 ps))
  | _ => l

/-- Recursion into `items` (any truthy `items` is passed to the recursive
call; the sanitizer is the identity on non-objects).  Earlier steps do not
touch the "items" key. -/
def itemsPart (rec : Json → Json) (fs l : JFields) : JFields :=
  match getKey fs "items" with
  | some it => if jsTruthy it then setKey l "items" (rec it) else l
  | none => l

/-- Recursion into `additionalProperties` when it is an object or an array.
The only earlier step touching this key deletes it when it is exactly
`false`, which falls in this match's default branch either way. -/
def apPart (rec : Json → Json) (fs l : JFields) : JFields :=
  match getKey fs "additionalProperties" with
  | some (.obj afs) => setKey l "additionalProperties" (rec (.obj afs))
  | some (.arr axs) => setKey l "additionalProperties" (rec (.arr axs))
  | _ => l

/-- One unfolding of the sanitizer on an object node, parameterized by the
recursive callee. -/
def sanitizeBody (rec : Json → Json) (fs : JFields) : JFields :=
  apPart rec fs (itemsPart rec fs (propsPart rec fs (nonRecSteps fs)))

/-- Fuel-indexed sanitizer.  `jsize` fuel is always sufficient
(`sanitizeFuel_mono`), which makes `sanitizeSchema` total and executable. -/
def sanitizeFuel : Nat → Json → Json
  | _, .null => .null
  | _, .bool b => .bool b
  | _, .num n => .num n
  | _, .str s => .str s
  | _, .arr xs => .arr xs
  | 0, .obj fs => .obj fs
  | n + 1, .obj fs => .obj (sanitizeBody (sanitizeFuel n) fs)

/-- `sanitizeSchema` of src/unnamed/part_000: identity on non-objects
(including arrays, whose copy the JS code returns untouched since none of the
accessed keys exists on an array), the full rewrite pipeline on objects. -/
def sanitizeSchema (j : Json) : Json :=
  sanitizeFuel (jsize j) j

theorem sanitizeFuel_arr (n : Nat) (xs : JList) : sanitizeFuel n (.arr xs) = .arr xs := by
  cases n <;> rfl

theorem sanitizeFuel_obj_succ (n : Nat) (fs : JFields) :
    sanitizeFuel (n + 1) (.obj fs) = .obj (sanitizeBody (sanitizeFuel n) fs) := rfl

theorem mapVals_congr {f g : Json → Json} :
    ∀ {pfs : JFields}, (∀ v, FHasVal pfs v → f v = g v) → mapVals f pfs = mapVals g pfs
  | .nil, _ => rfl
  | .cons k v rest, h => by
    simp only [mapVals]
    rw [h v (Or.inl rfl), mapVals_congr (fun w hw => h w (Or.inr hw))]

theorem indexedVals_congr {f g : Json → Json} :
    ∀ {ps : JList} (start : Nat), (∀ v, LHasVal ps v → f v = g v) →
      indexedVals f start ps = indexedVals g start ps
  | .nil, _, _ => rfl
  | .cons x xs, start, h => by
    simp only [indexedVals]
    rw [h x (Or.inl rfl), indexedVals_congr (start + 1) (fun w hw => h w (Or.inr hw))]

theorem propsPart_congr {f g : Json → Json} {fs l : JFields}
    (h : ∀ v, jsize v ≤ fsize fs → f v = g v) :
    propsPart f fs l = propsPart g fs l := by
  rcases hp : getKey fs "properties" with _ | p
  · simp only [propsPart, hp]
  · have hps : jsize p ≤ fsize fs := getKey_jsize hp
    cases p with
    | obj pfs =>
      have hm : mapVals f pfs = mapVals g pfs := by
        apply mapVals_congr
        intro v hv
        have h1 : jsize v ≤ fsize pfs := fhasval_jsize hv
        have h2 : jsize (Json.obj pfs) = 1 + fsize pfs := rfl
        exact h v (by omega)
      simp only [propsPart, hp, hm]
    | arr ps =>
      have hm : indexedVals f 0 ps = indexedVals g 0 ps := by
        apply indexedVals_congr
        intro v hv
        have h1 : jsize v ≤ lsize ps := lhasval_jsize hv
        have h2 : jsize (Json.arr ps) = 1 + lsize ps := rfl
        exact h v (by omega)
      simp only [propsPart, hp, hm]
    | null => simp only [propsPart, hp]
    | bool b => simp only [propsPart, hp]
    | num n => simp only [propsPart, hp]
    | str s => simp only [propsPart, hp]

theorem itemsPart_congr {f g : Json → Json} {fs l : JFields}
    (h : ∀ v, jsize v ≤ fsize fs → f v = g v) :
    itemsPart f fs l = itemsPart g fs l := by
  rcases hp : getKey fs "items" with _ | it
  · simp only [itemsPart, hp]
  · have hit : jsize it ≤ fsize fs := getKey_jsize hp
    simp only [itemsPart, hp, h it hit]

theorem apPart_congr {f g : Json → Json} {fs l : JFields}
    (h : ∀ v, jsize v ≤ fsize fs → f v = g v) :
    apPart f fs l = apPart g fs l := by
  rcases hp : getKey fs "additionalProperties" with _ | p
  · simp only [apPart, hp]
  · have hps : jsize p ≤ fsize fs := getKey_jsize hp
    cases p with
    | obj afs => simp only [apPart, hp, h _ hps]
    | arr axs => simp only [apPart, hp, h _ hps]
    | null => simp only [apPart, hp]
    | bool b => simp only [apPart, hp]
    | num n => simp only [apPart, hp]
    | str s => simp only [apPart, hp]

theorem sanitizeBody_congr {f g : Json → Json} {fs : JFields}
    (h : ∀ v, jsize v ≤ fsize fs → f v = g v) :
    sanitizeBody f fs = sanitizeBody g fs := by
  unfold sanitizeBody
  rw [propsPart_congr h, itemsPart_congr h, apPart_congr h]

theorem sanitizeFuel_mono : ∀ (n : Nat) (j : Json), jsize j ≤ n →
    sanitizeFuel n j = sanitizeFuel (jsize j) j := by
  intro n
  induction n using Nat.strong_induction_on with
  | _ n ih =>
    intro j hj
    cases j with
    | null => cases n <;> rfl
    | bool b => cases n <;> rfl
    | num m => cases n <;> rfl
    | str s => cases n <;> rfl
    | arr xs => rw [sanitizeFuel_arr, sanitizeFuel_arr]
    | obj fs =>
      have hsz : jsize (Json.obj fs) = fsize fs + 1 := by
        simp only [jsize]; omega
      have hn : 1 + fsize fs ≤ n := by
        have : jsize (Json.obj fs) = 1 + fsize fs := rfl
        omega
      obtain ⟨m, rfl⟩ : ∃ m, n = m + 1 := ⟨n - 1, by omega⟩
      rw [hsz, sanitizeFuel_obj_succ, sanitizeFuel_obj_succ]
      refine congrArg Json.obj (sanitizeBody_congr ?_)
      intro v hv
      have h1 : sanitizeFuel m v = sanitizeFuel (jsize v) v :=
        ih m (by omega) v (by omega)
      have h2 : sanitizeFuel (fsize fs) v = sanitizeFuel (jsize v) v :=
        ih (fsize fs) (by omega) v hv
      rw [h1, h2]

theorem sanitizeFuel_eq_sanitizeSchema {n : Nat} {j : Json} (h : jsize j ≤ n) :
    sanitizeFuel n j = sanitizeSchema j :=
  sanitizeFuel_mono n j h

theorem sanitizeSchema_obj (fs : JFields) :
    sanitizeSchema (.obj fs) = .obj (sanitizeBody sanitizeSchema fs) := by
  have hsz : jsize (Json.obj fs) = fsize fs + 1 := by
    simp only [jsize]; omega
  have h0 : sanitizeSchema (.obj fs) = sanitizeFuel (fsize fs + 1) (.obj fs) := by
    simp only [sanitizeSchema, hsz]
  rw [h0, sanitizeFuel_obj_succ]
  refine congrArg Json.obj (sanitizeBody_congr ?_)
  intro v hv
  exact sanitizeFuel_eq_sanitizeSchema hv

theorem sanitizeSchema_arr (xs : JList) : sanitizeSchema (.arr xs) = .arr xs :=
  sanitizeFuel_arr _ _

/-!
Key-tracking lemmas for the pipeline: which keys each step can touch, when a
step is the identity, and what shape each step guarantees for its own key.
-/

theorem getKey_dropKeys (ks : List String) :
    ∀ (fs : JFields) (k : String),
      getKey (dropKeys fs ks) k = if k ∈ ks then none else getKey fs k := by
  induction ks with
  | nil => intro fs k; simp [dropKeys]
  | cons k' ks ih =>
    intro fs k
    simp only [dropKeys]
    rw [ih]
    by_cases hk : k ∈ ks
    · simp [hk]
    · by_cases hkk : k = k'
      · subst hkk
        simp [hk, getKey_eraseKey_self]
      · simp [hk, hkk, getKey_eraseKey_ne hkk]

theorem dropKeys_noop (ks : List String) :
    ∀ (fs : JFields), (∀ k ∈ ks, getKey fs k = none) → dropKeys fs ks = fs := by
  induction ks with
  | nil => intro fs _; rfl
  | cons k' ks ih =>
    intro fs h
    simp only [dropKeys]
    rw [eraseKey_of_getKey_none (h k' (by simp)), ih fs (fun k hk => h k (by simp [hk]))]

theorem getKey_formatStep_ne {k : String} (hk : k ≠ "format") (l : JFields) :
    getKey (formatStep l) k = getKey l k := by
  rcases hf : getKey l "format" with _ | f
  · simp only [formatStep, hf]
  · simp only [formatStep, hf]
    split
    · exact getKey_eraseKey_ne hk l
    · rfl

theorem getKey_typeStep_ne {k : String} (h1 : k ≠ "type") (h2 : k ≠ "nullable")
    (l : JFields) : getKey (typeStep l) k = getKey l k := by
  rcases ht : getKey l "type" with _ | t
  · simp only [typeStep, ht]
  · cases t with
    | arr ts =>
      simp only [typeStep, ht]
      rcases hfn : findNonNull ts with _ | t'
      · simp only [hfn]
        exact getKey_setKey_ne h1 _ _
      · simp only [hfn]
        split
        · split
          · rw [getKey_setKey_ne h2, getKey_setKey_ne h1]
          · exact getKey_setKey_ne h1 _ _
        · exact getKey_setKey_ne h1 _ _
    | null => simp only [typeStep, ht]
    | bool b => simp only [typeStep, ht]
    | num n => simp only [typeStep, ht]
    | str s => simp only [typeStep, ht]
    | obj fs => simp only [typeStep, ht]

theorem getKey_apFalseStep_ne {k : String} (hk : k ≠ "additionalProperties")
    (l : JFields) : getKey (apFalseStep l) k = getKey l k := by
  unfold apFalseStep
  split
  · exact getKey_eraseKey_ne hk l
  · rfl

theorem getKey_requiredStep_ne {k : String} (hk : k ≠ "required") (l : JFields) :
    getKey (requiredStep l) k = getKey l k := by
  unfold requiredStep
  split
  · exact getKey_eraseKey_ne hk l
  · rfl

theorem getKey_minMaxStep_ne {k : String} (h1 : k ≠ "minimum") (h2 : k ≠ "maximum")
    (h3 : k ≠ "multipleOf") (l : JFields) : getKey (minMaxStep l) k = getKey l k := by
  rcases ht : getKey l "type" with _ | t
  · simp only [minMaxStep, ht]
  · simp only [minMaxStep, ht]
    split
    · rw [getKey_eraseKey_ne h3, getKey_eraseKey_ne h2, getKey_eraseKey_ne h1]
    · rfl

theorem getKey_propsPart_ne {k : String} (hk : k ≠ "properties")
    (rec : Json → Json) (fs l : JFields) : getKey (propsPart rec fs l) k = getKey l k := by
  rcases hp : getKey fs "properties" with _ | p
  · simp only [propsPart, hp]
  · cases p with
    | obj pfs => simp only [propsPart, hp]; exact getKey_setKey_ne hk _ _
    | arr ps => simp only [propsPart, hp]; exact getKey_setKey_ne hk _ _
    | null => simp only [propsPart, hp]
    | bool b => simp only [propsPart, hp]
    | num n => simp only [propsPart, hp]
    | str s => simp only [propsPart, hp]

theorem getKey_itemsPart_ne {k : String} (hk : k ≠ "items")
    (rec : Json → Json) (fs l : JFields) : getKey (itemsPart rec fs l) k = getKey l k := by
  rcases hp : getKey fs "items" with _ | it
  · simp only [itemsPart, hp]
  · simp only [itemsPart, hp]
    split
    · exact getKey_setKey_ne hk _ _
    · rfl

theorem getKey_apPart_ne {k : String} (hk : k ≠ "additionalProperties")
    (rec : Json → Json) (fs l : JFields) : getKey (apPart rec fs l) k = getKey l k := by
  rcases hp : getKey fs "additionalProperties" with _ | p
  · simp only [apPart, hp]
  · cases p with
    | obj afs => simp only [apPart, hp]; exact getKey_setKey_ne hk _ _
    | arr axs => simp only [apPart, hp]; exact getKey_setKey_ne hk _ _
    | null => simp only [apPart, hp]
    | bool b => simp only [apPart, hp]
    | num n => simp only [apPart, hp]
    | str s => simp only [apPart, hp]

theorem getKey_recParts {k : String} (h1 : k ≠ "properties") (h2 : k ≠ "items")
    (h3 : k ≠ "additionalProperties") (rec : Json → Json) (fs l : JFields) :
    getKey (apPart rec fs (itemsPart rec fs (propsPart rec fs l))) k = getKey l k := by
  rw [getKey_apPart_ne h3, getKey_itemsPart_ne h2, getKey_propsPart_ne h1]

theorem formatStep_noop {l : JFields}
    (h : ∀ f, getKey l "format" = some f →
      ¬(jsTruthy f = true ∧ f ≠ Json.str "enum" ∧ f ≠ Json.str "date-time")) :
    formatStep l = l := by
  rcases hf : getKey l "format" with _ | f
  · simp only [formatStep, hf]
  · simp only [formatStep, hf]
    rw [if_neg (h f hf)]

theorem typeStep_noop {l : JFields}
    (h : ∀ ts, getKey l "type" ≠ some (.arr ts)) : typeStep l = l := by
  rcases ht : getKey l "type" with _ | t
  · simp only [typeStep, ht]
  · cases t with
    | arr ts => exact absurd ht (h ts)
    | null => simp only [typeStep, ht]
    | bool b => simp only [typeStep, ht]
    | num n => simp only [typeStep, ht]
    | str s => simp only [typeStep, ht]
    | obj fs => simp only [typeStep, ht]

theorem apFalseStep_noop {l : JFields}
    (h : getKey l "additionalProperties" ≠ some (.bool false)) : apFalseStep l = l := by
  unfold apFalseStep
  rw [if_neg h]

theorem requiredStep_noop {l : JFields}
    (h : getKey l "required" ≠ some (.arr .nil)) : requiredStep l = l := by
  rcases hr : getKey l "required" with _ | v
  · simp only [requiredStep, hr]
  · cases v with
    | arr ts =>
      cases ts with
      | nil => exact absurd hr h
      | cons x xs => simp only [requiredStep, hr]
    | null => simp only [requiredStep, hr]
    | bool b => simp only [requiredStep, hr]
    | num n => simp only [requiredStep, hr]
    | str s => simp only [requiredStep, hr]
    | obj fs => simp only [requiredStep, hr]

theorem minMaxStep_noop_absent {l : JFields}
    (h1 : getKey l "minimum" = none) (h2 : getKey l "maximum" = none)
    (h3 : getKey l "multipleOf" = none) : minMaxStep l = l := by
  rcases ht : getKey l "type" with _ | t
  · simp only [minMaxStep, ht]
  · simp only [minMaxStep, ht]
    split
    · rw [eraseKey_of_getKey_none h1, eraseKey_of_getKey_none h2,
        eraseKey_of_getKey_none h3]
    · rfl

theorem minMaxStep_noop_type {l : JFields}
    (h : ∀ t, getKey l "type" = some t →
      ¬(jsTruthy t = true ∧ t ≠ Json.str "number" ∧ t ≠ Json.str "integer")) :
    minMaxStep l = l := by
  rcases ht : getKey l "type" with _ | t
  · simp only [minMaxStep, ht]
  · simp only [minMaxStep, ht]
    rw [if_neg (h t ht)]

theorem formatStep_result (l : JFields) :
    ∀ f, getKey (formatStep l) "format" = some f →
      ¬(jsTruthy f = true ∧ f ≠ Json.str "enum" ∧ f ≠ Json.str "date-time") := by
  intro f hf
  rcases hf0 : getKey l "format" with _ | f0
  · simp only [formatStep, hf0] at hf
    exact absurd hf (by simp)
  · simp only [formatStep, hf0] at hf
    by_cases hc : jsTruthy f0 = true ∧ f0 ≠ Json.str "enum" ∧ f0 ≠ Json.str "date-time"
    · rw [if_pos hc, getKey_eraseKey_self] at hf
      exact absurd hf (by simp)
    · rw [if_neg hc, hf0] at hf
      injection hf with hh
      subst hh
      exact hc

theorem requiredStep_result (l : JFields) :
    ∀ v, getKey (requiredStep l) "required" = some v → v ≠ .arr .nil := by
  intro v hv
  rcases hr : getKey l "required" with _ | w
  · simp only [requiredStep, hr] at hv
    exact absurd hv (by simp)
  · cases w with
    | arr ts =>
      cases ts with
      | nil =>
        simp only [requiredStep, hr] at hv
        rw [getKey_eraseKey_self] at hv
        exact absurd hv (by simp)
      | cons x xs =>
        simp only [requiredStep, hr] at hv
        injection hv with hh
        subst hh
        simp
    | null =>
      simp only [requiredStep, hr] at hv
      injection hv with hh
      subst hh
      simp
    | bool b =>
      simp only [requiredStep, hr] at hv
      injection hv with hh
      subst hh
      simp
    | num n =>
      simp only [requiredStep, hr] at hv
      injection hv with hh
      subst hh
      simp
    | str s =>
      simp only [requiredStep, hr] at hv
      injection hv with hh
      subst hh
      simp
    | obj fs =>
      simp only [requiredStep, hr] at hv
      injection hv with hh
      subst hh
      simp

/-!
Idempotence infrastructure.  `sanitizeSchema` is not idempotent on every
input: a `type` array whose first non-"null" element is itself an array is
collapsed to that array, which a second pass collapses again.  `schemaOk`
rules out exactly that shape, hereditarily.
-/

/-- The node-level condition: if `type` is an array, the element the collapse
would select (first element different from the string "null") is not itself
an array. -/
def typeCollapseOk (fs : JFields) : Bool :=
  match getKey fs "type" with
  | some (.arr ts) =>
    match findNonNull ts with
    | some (.arr _) => false
    | _ => true
  | _ => true

/-- All field values satisfy a predicate. -/
def allValsOk (ok : Json → Bool) : JFields → Bool
  | .nil => true
  | .cons _ v rest => ok v && allValsOk ok rest

/-- All list elements satisfy a predicate. -/
def allListOk (ok : Json → Bool) : JList → Bool
  | .nil => true
  | .cons x xs => ok x && allListOk ok xs

/-- Fuel-indexed hereditary well-formedness. -/
def schemaOkFuel : Nat → Json → Bool
  | _, .null => true
  | _, .bool _ => true
  | _, .num _ => true
  | _, .str _ => true
  | 0, .arr _ => true
  | 0, .obj _ => true
  | n + 1, .arr xs => allListOk (schemaOkFuel n) xs
  | n + 1, .obj fs => typeCollapseOk fs && allValsOk (schemaOkFuel n) fs

/-- Every object node anywhere in the value satisfies `typeCollapseOk`. -/
def schemaOk (j : Json) : Bool :=
  schemaOkFuel (jsize j) j

theorem schemaOkFuel_arr_succ (n : Nat) (xs : JList) :
    schemaOkFuel (n + 1) (.arr xs) = allListOk (schemaOkFuel n) xs := rfl

theorem schemaOkFuel_obj_succ (n : Nat) (fs : JFields) :
    schemaOkFuel (n + 1) (.obj fs) = (typeCollapseOk fs && allValsOk (schemaOkFuel n) fs) := rfl

theorem allValsOk_congr {f g : Json → Bool} :
    ∀ {fs : JFields}, (∀ v, FHasVal fs v → f v = g v) → allValsOk f fs = allValsOk g fs
  | .nil, _ => rfl
  | .cons k v rest, h => by
    simp only [allValsOk]
    rw [h v (Or.inl rfl), allValsOk_congr (fun w hw => h w (Or.inr hw))]

theorem allListOk_congr {f g : Json → Bool} :
    ∀ {xs : JList}, (∀ v, LHasVal xs v → f v = g v) → allListOk f xs = allListOk g xs
  | .nil, _ => rfl
  | .cons x rest, h => by
    simp only [allListOk]
    rw [h x (Or.inl rfl), allListOk_congr (fun w hw => h w (Or.inr hw))]

theorem schemaOkFuel_mono : ∀ (n : Nat) (j : Json), jsize j ≤ n →
    schemaOkFuel n j = schemaOkFuel (jsize j) j := by
  intro n
  induction n using Nat.strong_induction_on with
  | _ n ih =>
    intro j hj
    cases j with
    | null => cases n <;> rfl
    | bool b => cases n <;> rfl
    | num m => cases n <;> rfl
    | str s => cases n <;> rfl
    | arr xs =>
      have hsz : jsize (Json.arr xs) = lsize xs + 1 := by
        simp only [jsize]; omega
      have hn : 1 + lsize xs ≤ n := by
        have : jsize (Json.arr xs) = 1 + lsize xs := rfl
        omega
      obtain ⟨m, rfl⟩ : ∃ m, n = m + 1 := ⟨n - 1, by omega⟩
      rw [hsz, schemaOkFuel_arr_succ, schemaOkFuel_arr_succ]
      apply allListOk_congr
      intro v hv
      have hvs : jsize v ≤ lsize xs := lhasval_jsize hv
      rw [ih m (by omega) v (by omega), ih (lsize xs) (by omega) v hvs]
    | obj fs =>
      have hsz : jsize (Json.obj fs) = fsize fs + 1 := by
        simp only [jsize]; omega
      have hn : 1 + fsize fs ≤ n := by
        have : jsize (Json.obj fs) = 1 + fsize fs := rfl
        omega
      obtain ⟨m, rfl⟩ : ∃ m, n = m + 1 := ⟨n - 1, by omega⟩
      rw [hsz, schemaOkFuel_obj_succ, schemaOkFuel_obj_succ]
      have : allValsOk (schemaOkFuel m) fs = allValsOk (schemaOkFuel (fsize fs)) fs := by
        apply allValsOk_congr
        intro v hv
        have hvs : jsize v ≤ fsize fs := fhasval_jsize hv
        rw [ih m (by omega) v (by omega), ih (fsize fs) (by omega) v hvs]
      rw [this]

theorem schemaOk_obj (fs : JFields) :
    schemaOk (.obj fs) = (typeCollapseOk fs && allValsOk schemaOk fs) := by
  have hsz : jsize (Json.obj fs) = fsize fs + 1 := by
    simp only [jsize]; omega
  show schemaOkFuel (jsize (Json.obj fs)) (.obj fs) = _
  rw [hsz, schemaOkFuel_obj_succ]
  have : allValsOk (schemaOkFuel (fsize fs)) fs = allValsOk schemaOk fs := by
    apply allValsOk_congr
    intro v hv
    exact schemaOkFuel_mono (fsize fs) v (fhasval_jsize hv)
  rw [this]

theorem schemaOk_arr (xs : JList) :
    schemaOk (.arr xs) = allListOk schemaOk xs := by
  have hsz : jsize (Json.arr xs) = lsize xs + 1 := by
    simp only [jsize]; omega
  show schemaOkFuel (jsize (Json.arr xs)) (.arr xs) = _
  rw [hsz, schemaOkFuel_arr_succ]
  apply allListOk_congr
  intro v hv
  exact schemaOkFuel_mono (lsize xs) v (lhasval_jsize hv)

theorem allValsOk_fhasval {ok : Json → Bool} {v : Json} :
    ∀ {fs : JFields}, allValsOk ok fs = true → FHasVal fs v → ok v = true
  | .nil, _, hv => absurd hv (by simp [FHasVal])
  | .cons k w rest, h, hv => by
    simp only [allValsOk, Bool.and_eq_true] at h
    rcases hv with hv | hv
    · subst hv; exact h.1
    · exact allValsOk_fhasval h.2 hv

theorem allListOk_lhasval {ok : Json → Bool} {v : Json} :
    ∀ {xs : JList}, allListOk ok xs = true → LHasVal xs v → ok v = true
  | .nil, _, hv => absurd hv (by simp [LHasVal])
  | .cons x rest, h, hv => by
    simp only [allListOk, Bool.and_eq_true] at h
    rcases hv with hv | hv
    · subst hv; exact h.1
    · exact allListOk_lhasval h.2 hv

theorem mapVals_mapVals (f g : Json → Json) :
    ∀ (fs : JFields), mapVals f (mapVals g fs) = mapVals (fun v => f (g v)) fs
  | .nil => rfl
  | .cons k v rest => by
    simp only [mapVals]
    rw [mapVals_mapVals f g rest]

theorem mapVals_indexedVals (f g : Json → Json) :
    ∀ (xs : JList) (start : Nat),
      mapVals f (indexedVals g start xs) = indexedVals (fun v => f (g v)) start xs
  | .nil, _ => rfl
  | .cons x rest, start => by
    simp only [indexedVals, mapVals]
    rw [mapVals_indexedVals f g rest (start + 1)]

theorem jsTruthy_sanitizeSchema (j : Json) : jsTruthy (sanitizeSchema j) = jsTruthy j := by
  cases j with
  | null => rfl
  | bool b => rfl
  | num n => rfl
  | str s => rfl
  | arr xs => rw [sanitizeSchema_arr]
  | obj fs => rw [sanitizeSchema_obj]; rfl

/-!
What the sanitizer's first pass guarantees about each key of its output,
stated for an arbitrary recursive callee `rec`.
-/

theorem getKey_nonRec_untouched {k : String} (hbk : k ∉ geminiBannedKeys)
    (h1 : k ≠ "format") (h2 : k ≠ "type") (h3 : k ≠ "nullable")
    (h4 : k ≠ "additionalProperties") (h5 : k ≠ "required")
    (h6 : k ≠ "minimum") (h7 : k ≠ "maximum") (h8 : k ≠ "multipleOf")
    (fs : JFields) : getKey (nonRecSteps fs) k = getKey fs k := by
  unfold nonRecSteps
  rw [getKey_minMaxStep_ne h6 h7 h8, getKey_requiredStep_ne h5, getKey_apFalseStep_ne h4,
    getKey_typeStep_ne h2 h3, getKey_formatStep_ne h1]
  unfold dropBannedKeys
  rw [getKey_dropKeys]
  simp [hbk]

theorem getKey_body_untouched {k : String} (hbk : k ∉ geminiBannedKeys)
    (h1 : k ≠ "format") (h2 : k ≠ "type") (h3 : k ≠ "nullable")
    (h4 : k ≠ "additionalProperties") (h5 : k ≠ "required")
    (h6 : k ≠ "minimum") (h7 : k ≠ "maximum") (h8 : k ≠ "multipleOf")
    (h9 : k ≠ "properties") (h10 : k ≠ "items")
    (rec : Json → Json) (fs : JFields) :
    getKey (sanitizeBody rec fs) k = getKey fs k := by
  unfold sanitizeBody
  rw [getKey_recParts h9 h10 h4, getKey_nonRec_untouched hbk h1 h2 h3 h4 h5 h6 h7 h8]

theorem getKey_body_banned {k : String} (hk : k ∈ geminiBannedKeys)
    (rec : Json → Json) (fs : JFields) : getKey (sanitizeBody rec fs) k = none := by
  have hne : ∀ k' ∈ geminiBannedKeys, k' ≠ "format" ∧ k' ≠ "type" ∧ k' ≠ "nullable" ∧
      k' ≠ "additionalProperties" ∧ k' ≠ "required" ∧ k' ≠ "minimum" ∧ k' ≠ "maximum" ∧
      k' ≠ "multipleOf" ∧ k' ≠ "properties" ∧ k' ≠ "items" := by decide
  obtain ⟨n1, n2, n3, n4, n5, n6, n7, n8, n9, n10⟩ := hne k hk
  unfold sanitizeBody
  rw [getKey_recParts n9 n10 n4]
  unfold nonRecSteps
  rw [getKey_minMaxStep_ne n6 n7 n8, getKey_requiredStep_ne n5, getKey_apFalseStep_ne n4,
    getKey_typeStep_ne n2 n3, getKey_formatStep_ne n1]
  unfold dropBannedKeys
  rw [getKey_dropKeys]
  simp [hk]

theorem getKey_body_format (rec : Json → Json) (fs : JFields) :
    getKey (sanitizeBody rec fs) "format" =
      getKey (formatStep (dropBannedKeys fs)) "format" := by
  unfold sanitizeBody
  rw [getKey_recParts (by decide) (by decide) (by decide)]
  unfold nonRecSteps
  rw [getKey_minMaxStep_ne (by decide) (by decide) (by decide),
    getKey_requiredStep_ne (by decide), getKey_apFalseStep_ne (by decide),
    getKey_typeStep_ne (by decide) (by decide)]

theorem getKey_body_type (rec : Json → Json) (fs : JFields) :
    getKey (sanitizeBody rec fs) "type" =
      getKey (typeStep (formatStep (dropBannedKeys fs))) "type" := by
  unfold sanitizeBody
  rw [getKey_recParts (by decide) (by decide) (by decide)]
  unfold nonRecSteps
  rw [getKey_minMaxStep_ne (by decide) (by decide) (by decide),
    getKey_requiredStep_ne (by decide), getKey_apFalseStep_ne (by decide)]

theorem getKey_body_required (rec : Json → Json) (fs : JFields) :
    getKey (sanitizeBody rec fs) "required" =
      getKey (requiredStep (apFalseStep (typeStep (formatStep (dropBannedKeys fs)))))
        "required" := by
  unfold sanitizeBody
  rw [getKey_recParts (by decide) (by decide) (by decide)]
  unfold nonRecSteps
  rw [getKey_minMaxStep_ne (by decide) (by decide) (by decide)]

theorem getKey_preType (fs : JFields) :
    getKey (formatStep (dropBannedKeys fs)) "type" = getKey fs "type" := by
  rw [getKey_formatStep_ne (by decide)]
  unfold dropBannedKeys
  rw [getKey_dropKeys]
  simp [show ("type" : String) ∉ geminiBannedKeys by decide]

theorem getKey_typeStep_arr_found_truthy {l : JFields} {ts0 : JList} {t' : Json}
    (hT : getKey l "type" = some (.arr ts0)) (hfn : findNonNull ts0 = some t')
    (htr : jsTruthy t' = true) : getKey (typeStep l) "type" = some t' := by
  simp only [typeStep, hT, hfn]
  rw [if_pos htr]
  by_cases hhn : hasNullType ts0 = true
  · rw [if_pos hhn, getKey_setKey_ne (by decide), getKey_setKey_self]
  · rw [if_neg hhn, getKey_setKey_self]

theorem getKey_typeStep_arr_none {l : JFields} {ts0 : JList}
    (hT : getKey l "type" = some (.arr ts0)) (hfn : findNonNull ts0 = none) :
    getKey (typeStep l) "type" = some (Json.str "string") := by
  simp only [typeStep, hT, hfn]
  rw [getKey_setKey_self]

theorem getKey_typeStep_arr_found_falsy {l : JFields} {ts0 : JList} {t' : Json}
    (hT : getKey l "type" = some (.arr ts0)) (hfn : findNonNull ts0 = some t')
    (htr : jsTruthy t' = false) :
    getKey (typeStep l) "type" = some (Json.str "string") := by
  simp only [typeStep, hT, hfn]
  rw [if_neg (by simp [htr]), getKey_setKey_self]

set_option maxHeartbeats 1600000 in
theorem typeStep_result_not_arr {fs : JFields} (htc : typeCollapseOk fs = true) :
    ∀ ts, getKey (typeStep (formatStep (dropBannedKeys fs))) "type" ≠ some (.arr ts) := by
  intro ts hcontra
  have hl := getKey_preType fs
  rcases hT : getKey fs "type" with _ | t
  · have hno : typeStep (formatStep (dropBannedKeys fs)) = formatStep (dropBannedKeys fs) :=
      typeStep_noop (fun ts' h => by rw [hl, hT] at h; simp at h)
    rw [hno, hl, hT] at hcontra
    simp at hcontra
  · cases t with
    | arr ts0 =>
      have hlT : getKey (formatStep (dropBannedKeys fs)) "type" = some (.arr ts0) := by
        rw [hl, hT]
      have hfc : ∀ us, findNonNull ts0 ≠ some (.arr us) := by
        intro us hus
        simp [typeCollapseOk, hT, hus] at htc
      rcases hfn : findNonNull ts0 with _ | t'
      · rw [getKey_typeStep_arr_none hlT hfn] at hcontra
        simp at hcontra
      · rcases htr : jsTruthy t' with _ | _
        · rw [getKey_typeStep_arr_found_falsy hlT hfn htr] at hcontra
          simp at hcontra
        · rw [getKey_typeStep_arr_found_truthy hlT hfn htr] at hcontra
          injection hcontra with hh
          rw [hh] at hfn
          exact hfc ts hfn
    | null =>
      have hno : typeStep (formatStep (dropBannedKeys fs)) = formatStep (dropBannedKeys fs) :=
        typeStep_noop (fun ts' h => by rw [hl, hT] at h; simp at h)
      rw [hno, hl, hT] at hcontra
      simp at hcontra
    | bool b =>
      have hno : typeStep (formatStep (dropBannedKeys fs)) = formatStep (dropBannedKeys fs) :=
        typeStep_noop (fun ts' h => by rw [hl, hT] at h; simp at h)
      rw [hno, hl, hT] at hcontra
      simp at hcontra
    | num m =>
      have hno : typeStep (formatStep (dropBannedKeys fs)) = formatStep (dropBannedKeys fs) :=
        typeStep_noop (fun ts' h => by rw [hl, hT] at h; simp at h)
      rw [hno, hl, hT] at hcontra
      simp at hcontra
    | str s =>
      have hno : typeStep (formatStep (dropBannedKeys fs)) = formatStep (dropBannedKeys fs) :=
        typeStep_noop (fun ts' h => by rw [hl, hT] at h; simp at h)
      rw [hno, hl, hT] at hcontra
      simp at hcontra
    | obj gs =>
      have hno : typeStep (formatStep (dropBannedKeys fs)) = formatStep (dropBannedKeys fs) :=
        typeStep_noop (fun ts' h => by rw [hl, hT] at h; simp at h)
      rw [hno, hl, hT] at hcontra
      simp at hcontra

theorem minMaxStep_deletes {l : JFields} {t : Json} (hT : getKey l "type" = some t)
    (hc : jsTruthy t = true ∧ t ≠ Json.str "number" ∧ t ≠ Json.str "integer") :
    getKey (minMaxStep l) "minimum" = none ∧ getKey (minMaxStep l) "maximum" = none ∧
      getKey (minMaxStep l) "multipleOf" = none := by
  simp only [minMaxStep, hT]
  rw [if_pos hc]
  refine ⟨?_, ?_, ?_⟩
  · rw [getKey_eraseKey_ne (by decide), getKey_eraseKey_ne (by decide), getKey_eraseKey_self]
  · rw [getKey_eraseKey_ne (by decide), getKey_eraseKey_self]
  · rw [getKey_eraseKey_self]

theorem getKey_body_minKey {k : String} (h9 : k ≠ "properties") (h10 : k ≠ "items")
    (h4 : k ≠ "additionalProperties") (rec : Json → Json) (fs : JFields) :
    getKey (sanitizeBody rec fs) k = getKey (nonRecSteps fs) k := by
  unfold sanitizeBody
  rw [getKey_recParts h9 h10 h4]

theorem getKey_l5_type (fs : JFields) :
    getKey (requiredStep (apFalseStep (typeStep (formatStep (dropBannedKeys fs))))) "type" =
      getKey (typeStep (formatStep (dropBannedKeys fs))) "type" := by
  rw [getKey_requiredStep_ne (by decide), getKey_apFalseStep_ne (by decide)]

theorem minMax_body_fixpoint (fs : JFields) :
    minMaxStep (sanitizeBody sanitizeSchema fs) = sanitizeBody sanitizeSchema fs := by
  rcases hT : getKey (sanitizeBody sanitizeSchema fs) "type" with _ | t
  · simp only [minMaxStep, hT]
  · by_cases hc : jsTruthy t = true ∧ t ≠ Json.str "number" ∧ t ≠ Json.str "integer"
    · have hT5 : getKey (requiredStep (apFalseStep (typeStep (formatStep (dropBannedKeys fs)))))
          "type" = some t := by
        rw [getKey_l5_type]
        rw [getKey_body_type] at hT
        exact hT
      have hdel := minMaxStep_deletes hT5 hc
      have hmin : getKey (sanitizeBody sanitizeSchema fs) "minimum" = none := by
        rw [getKey_body_minKey (by decide) (by decide) (by decide)]
        exact hdel.1
      have hmax : getKey (sanitizeBody sanitizeSchema fs) "maximum" = none := by
        rw [getKey_body_minKey (by decide) (by decide) (by decide)]
        exact hdel.2.1
      have hmult : getKey (sanitizeBody sanitizeSchema fs) "multipleOf" = none := by
        rw [getKey_body_minKey (by decide) (by decide) (by decide)]
        exact hdel.2.2
      exact minMaxStep_noop_absent hmin hmax hmult
    · apply minMaxStep_noop_type
      intro t' h
      rw [hT] at h
      injection h with hh
      subst hh
      exact hc

theorem getKey_nonRec_ap (fs : JFields) :
    getKey (nonRecSteps fs) "additionalProperties" =
      if getKey fs "additionalProperties" = some (.bool false) then none
      else getKey fs "additionalProperties" := by
  unfold nonRecSteps
  rw [getKey_minMaxStep_ne (by decide) (by decide) (by decide),
    getKey_requiredStep_ne (by decide)]
  have hpre : getKey (typeStep (formatStep (dropBannedKeys fs))) "additionalProperties" =
      getKey fs "additionalProperties" := by
    rw [getKey_typeStep_ne (by decide) (by decide), getKey_formatStep_ne (by decide)]
    unfold dropBannedKeys
    rw [getKey_dropKeys]
    simp [show ("additionalProperties" : String) ∉ geminiBannedKeys by decide]
  unfold apFalseStep
  by_cases hc : getKey (typeStep (formatStep (dropBannedKeys fs))) "additionalProperties" =
      some (.bool false)
  · rw [if_pos hc, getKey_eraseKey_self]
    rw [hpre] at hc
    rw [if_pos hc]
  · rw [if_neg hc, hpre]
    rw [hpre] at hc
    rw [if_neg hc]

theorem getKey_body_ap_obj {fs afs} (hap : getKey fs "additionalProperties" = some (.obj afs))
    (rec : Json → Json) :
    getKey (sanitizeBody rec fs) "additionalProperties" = some (rec (.obj afs)) := by
  unfold sanitizeBody
  simp only [apPart, hap]
  rw [getKey_setKey_self]

theorem getKey_body_ap_arr {fs axs} (hap : getKey fs "additionalProperties" = some (.arr axs))
    (rec : Json → Json) :
    getKey (sanitizeBody rec fs) "additionalProperties" = some (rec (.arr axs)) := by
  unfold sanitizeBody
  simp only [apPart, hap]
  rw [getKey_setKey_self]

theorem getKey_body_ap_other {fs : JFields}
    (h1 : ∀ afs, getKey fs "additionalProperties" ≠ some (.obj afs))
    (h2 : ∀ axs, getKey fs "additionalProperties" ≠ some (.arr axs))
    (rec : Json → Json) :
    getKey (sanitizeBody rec fs) "additionalProperties" =
      getKey (nonRecSteps fs) "additionalProperties" := by
  unfold sanitizeBody
  rcases ha : getKey fs "additionalProperties" with _ | p
  · simp only [apPart, ha]
    rw [getKey_itemsPart_ne (by decide), getKey_propsPart_ne (by decide)]
  · cases p with
    | obj afs => exact absurd ha (h1 afs)
    | arr axs => exact absurd ha (h2 axs)
    | null =>
      simp only [apPart, ha]
      rw [getKey_itemsPart_ne (by decide), getKey_propsPart_ne (by decide)]
    | bool b =>
      simp only [apPart, ha]
      rw [getKey_itemsPart_ne (by decide), getKey_propsPart_ne (by decide)]
    | num n =>
      simp only [apPart, ha]
      rw [getKey_itemsPart_ne (by decide), getKey_propsPart_ne (by decide)]
    | str s =>
      simp only [apPart, ha]
      rw [getKey_itemsPart_ne (by decide), getKey_propsPart_ne (by decide)]

theorem body_ap_ne_false (fs : JFields) :
    getKey (sanitizeBody sanitizeSchema fs) "additionalProperties" ≠ some (.bool false) := by
  rcases ha : getKey fs "additionalProperties" with _ | p
  · rw [getKey_body_ap_other (fun a h => by rw [ha] at h; simp at h)
      (fun a h => by rw [ha] at h; simp at h), getKey_nonRec_ap, ha]
    simp
  · cases p with
    | obj afs =>
      rw [getKey_body_ap_obj ha, sanitizeSchema_obj]
      simp
    | arr axs =>
      rw [getKey_body_ap_arr ha, sanitizeSchema_arr]
      simp
    | bool b =>
      cases b with
      | false =>
        rw [getKey_body_ap_other (fun a h => by rw [ha] at h; simp at h)
          (fun a h => by rw [ha] at h; simp at h), getKey_nonRec_ap, ha]
        simp
      | true =>
        rw [getKey_body_ap_other (fun a h => by rw [ha] at h; simp at h)
          (fun a h => by rw [ha] at h; simp at h), getKey_nonRec_ap, ha]
        simp
    | null =>
      rw [getKey_body_ap_other (fun a h => by rw [ha] at h; simp at h)
        (fun a h => by rw [ha] at h; simp at h), getKey_nonRec_ap, ha]
      simp
    | num n =>
      rw [getKey_body_ap_other (fun a h => by rw [ha] at h; simp at h)
        (fun a h => by rw [ha] at h; simp at h), getKey_nonRec_ap, ha]
      simp
    | str s =>
      rw [getKey_body_ap_other (fun a h => by rw [ha] at h; simp at h)
        (fun a h => by rw [ha] at h; simp at h), getKey_nonRec_ap, ha]
      simp

theorem nonRec_body_fixpoint {fs : JFields} (htc : typeCollapseOk fs = true) :
    nonRecSteps (sanitizeBody sanitizeSchema fs) = sanitizeBody sanitizeSchema fs := by
  have hd : dropBannedKeys (sanitizeBody sanitizeSchema fs) = sanitizeBody sanitizeSchema fs := by
    unfold dropBannedKeys
    apply dropKeys_noop
    intro k hk
    exact getKey_body_banned hk _ _
  have hf : formatStep (sanitizeBody sanitizeSchema fs) = sanitizeBody sanitizeSchema fs := by
    apply formatStep_noop
    intro f hfmt
    rw [getKey_body_format] at hfmt
    exact formatStep_result _ f hfmt
  have hty : typeStep (sanitizeBody sanitizeSchema fs) = sanitizeBody sanitizeSchema fs := by
    apply typeStep_noop
    intro ts h
    rw [getKey_body_type] at h
    exact typeStep_result_not_arr htc ts h
  have hapf : apFalseStep (sanitizeBody sanitizeSchema fs) = sanitizeBody sanitizeSchema fs :=
    apFalseStep_noop (body_ap_ne_false fs)
  have hreq : requiredStep (sanitizeBody sanitizeSchema fs) = sanitizeBody sanitizeSchema fs := by
    apply requiredStep_noop
    intro hcontra
    rw [getKey_body_required] at hcontra
    exact requiredStep_result _ _ hcontra rfl
  have hmm := minMax_body_fixpoint fs
  unfold nonRecSteps
  rw [hd, hf, hty, hapf, hreq, hmm]

theorem getKey_body_props_obj {fs pfs} (hp : getKey fs "properties" = some (.obj pfs))
    (rec : Json → Json) :
    getKey (sanitizeBody rec fs) "properties" = some (.obj (mapVals rec pfs)) := by
  unfold sanitizeBody
  rw [getKey_apPart_ne (by decide), getKey_itemsPart_ne (by decide)]
  simp only [propsPart, hp]
  rw [getKey_setKey_self]

theorem getKey_body_props_arr {fs ps} (hp : getKey fs "properties" = some (.arr ps))
    (rec : Json → Json) :
    getKey (sanitizeBody rec fs) "properties" = some (.obj (indexedVals rec 0 ps)) := by
  unfold sanitizeBody
  rw [getKey_apPart_ne (by decide), getKey_itemsPart_ne (by decide)]
  simp only [propsPart, hp]
  rw [getKey_setKey_self]

theorem getKey_body_props_other {fs : JFields}
    (h1 : ∀ pfs, getKey fs "properties" ≠ some (.obj pfs))
    (h2 : ∀ ps, getKey fs "properties" ≠ some (.arr ps))
    (rec : Json → Json) :
    getKey (sanitizeBody rec fs) "properties" = getKey fs "properties" := by
  unfold sanitizeBody
  rw [getKey_apPart_ne (by decide), getKey_itemsPart_ne (by decide)]
  rcases hp : getKey fs "properties" with _ | p
  · simp only [propsPart, hp]
    rw [getKey_nonRec_untouched (by decide) (by decide) (by decide) (by decide) (by decide)
      (by decide) (by decide) (by decide) (by decide), hp]
  · cases p with
    | obj pfs => exact absurd hp (h1 pfs)
    | arr ps => exact absurd hp (h2 ps)
    | null =>
      simp only [propsPart, hp]
      rw [getKey_nonRec_untouched (by decide) (by decide) (by decide) (by decide) (by decide)
        (by decide) (by decide) (by decide) (by decide), hp]
    | bool b =>
      simp only [propsPart, hp]
      rw [getKey_nonRec_untouched (by decide) (by decide) (by decide) (by decide) (by decide)
        (by decide) (by decide) (by decide) (by decide), hp]
    | num n =>
      simp only [propsPart, hp]
      rw [getKey_nonRec_untouched (by decide) (by decide) (by decide) (by decide) (by decide)
        (by decide) (by decide) (by decide) (by decide), hp]
    | str s =>
      simp only [propsPart, hp]
      rw [getKey_nonRec_untouched (by decide) (by decide) (by decide) (by decide) (by decide)
        (by decide) (by decide) (by decide) (by decide), hp]

theorem getKey_body_items_truthy {fs it} (hit : getKey fs "items" = some it)
    (htr : jsTruthy it = true) (rec : Json → Json) :
    getKey (sanitizeBody rec fs) "items" = some (rec it) := by
  unfold sanitizeBody
  rw [getKey_apPart_ne (by decide)]
  simp only [itemsPart, hit]
  rw [if_pos htr, getKey_setKey_self]

theorem getKey_body_items_none {fs : JFields} (hit : getKey fs "items" = none)
    (rec : Json → Json) : getKey (sanitizeBody rec fs) "items" = none := by
  unfold sanitizeBody
  rw [getKey_apPart_ne (by decide)]
  simp only [itemsPart, hit]
  rw [getKey_propsPart_ne (by decide), getKey_nonRec_untouched (by decide) (by decide)
    (by decide) (by decide) (by decide) (by decide) (by decide) (by decide) (by decide), hit]

theorem getKey_body_items_falsy {fs it} (hit : getKey fs "items" = some it)
    (htr : jsTruthy it = false) (rec : Json → Json) :
    getKey (sanitizeBody rec fs) "items" = some it := by
  unfold sanitizeBody
  rw [getKey_apPart_ne (by decide)]
  simp only [itemsPart, hit]
  rw [if_neg (by simp [htr]), getKey_propsPart_ne (by decide),
    getKey_nonRec_untouched (by decide) (by decide) (by decide) (by decide) (by decide)
      (by decide) (by decide) (by decide) (by decide), hit]

theorem props_body_fixpoint {fs : JFields}
    (hvals : allValsOk schemaOk fs = true)
    (hIH : ∀ v, jsize v ≤ fsize fs → schemaOk v = true →
      sanitizeSchema (sanitizeSchema v) = sanitizeSchema v) :
    propsPart sanitizeSchema (sanitizeBody sanitizeSchema fs) (sanitizeBody sanitizeSchema fs) =
      sanitizeBody sanitizeSchema fs := by
  rcases hp : getKey fs "properties" with _ | p
  · have hFp : getKey (sanitizeBody sanitizeSchema fs) "properties" = none := by
      rw [getKey_body_props_other (fun a h => by rw [hp] at h; simp at h)
        (fun a h => by rw [hp] at h; simp at h), hp]
    simp only [propsPart, hFp]
  · cases p with
    | obj pfs =>
      have hFp := getKey_body_props_obj hp sanitizeSchema
      simp only [propsPart, hFp]
      have hmm : mapVals sanitizeSchema (mapVals sanitizeSchema pfs) =
          mapVals sanitizeSchema pfs := by
        rw [mapVals_mapVals]
        apply mapVals_congr
        intro v hv
        have hsz : jsize v ≤ fsize fs := by
          have ha : jsize v ≤ fsize pfs := fhasval_jsize hv
          have hb : jsize (Json.obj pfs) ≤ fsize fs := getKey_jsize hp
          have hc : jsize (Json.obj pfs) = 1 + fsize pfs := rfl
          omega
        have hok : schemaOk v = true := by
          have hobj : schemaOk (Json.obj pfs) = true :=
            allValsOk_fhasval hvals (getKey_fhasval hp)
          rw [schemaOk_obj, Bool.and_eq_true] at hobj
          exact allValsOk_fhasval hobj.2 hv
        exact hIH v hsz hok
      rw [hmm, setKey_of_getKey_some hFp]
    | arr ps =>
      have hFp := getKey_body_props_arr hp sanitizeSchema
      simp only [propsPart, hFp]
      have hmm : mapVals sanitizeSchema (indexedVals sanitizeSchema 0 ps) =
          indexedVals sanitizeSchema 0 ps := by
        rw [mapVals_indexedVals]
        apply indexedVals_congr
        intro v hv
        have hsz : jsize v ≤ fsize fs := by
          have ha : jsize v ≤ lsize ps := lhasval_jsize hv
          have hb : jsize (Json.arr ps) ≤ fsize fs := getKey_jsize hp
          have hc : jsize (Json.arr ps) = 1 + lsize ps := rfl
          omega
        have hok : schemaOk v = true := by
          have harr : schemaOk (Json.arr ps) = true :=
            allValsOk_fhasval hvals (getKey_fhasval hp)
          rw [schemaOk_arr] at harr
          exact allListOk_lhasval harr hv
        exact hIH v hsz hok
      rw [hmm, setKey_of_getKey_some hFp]
    | null =>
      have hFp : getKey (sanitizeBody sanitizeSchema fs) "properties" = some .null := by
        rw [getKey_body_props_other (fun a h => by rw [hp] at h; simp at h)
          (fun a h => by rw [hp] at h; simp at h), hp]
      simp only [propsPart, hFp]
    | bool b =>
      have hFp : getKey (sanitizeBody sanitizeSchema fs) "properties" = some (.bool b) := by
        rw [getKey_body_props_other (fun a h => by rw [hp] at h; simp at h)
          (fun a h => by rw [hp] at h; simp at h), hp]
      simp only [propsPart, hFp]
    | num n =>
      have hFp : getKey (sanitizeBody sanitizeSchema fs) "properties" = some (.num n) := by
        rw [getKey_body_props_other (fun a h => by rw [hp] at h; simp at h)
          (fun a h => by rw [hp] at h; simp at h), hp]
      simp only [propsPart, hFp]
    | str s =>
      have hFp : getKey (sanitizeBody sanitizeSchema fs) "properties" = some (.str s) := by
        rw [getKey_body_props_other (fun a h => by rw [hp] at h; simp at h)
          (fun a h => by rw [hp] at h; simp at h), hp]
      simp only [propsPart, hFp]

theorem items_body_fixpoint {fs : JFields}
    (hvals : allValsOk schemaOk fs = true)
    (hIH : ∀ v, jsize v ≤ fsize fs → schemaOk v = true →
      sanitizeSchema (sanitizeSchema v) = sanitizeSchema v) :
    itemsPart sanitizeSchema (sanitizeBody sanitizeSchema fs) (sanitizeBody sanitizeSchema fs) =
      sanitizeBody sanitizeSchema fs := by
  rcases hit : getKey fs "items" with _ | it
  · have hFi : getKey (sanitizeBody sanitizeSchema fs) "items" = none :=
      getKey_body_items_none hit sanitizeSchema
    simp only [itemsPart, hFi]
  · rcases htr : jsTruthy it with _ | _
    · have hFi := getKey_body_items_falsy hit htr sanitizeSchema
      simp only [itemsPart, hFi]
      rw [if_neg (by simp [htr])]
    · have hFi := getKey_body_items_truthy hit htr sanitizeSchema
      simp only [itemsPart, hFi]
      have htr2 : jsTruthy (sanitizeSchema it) = true := by
        rw [jsTruthy_sanitizeSchema]; exact htr
      rw [if_pos htr2]
      have hrec : sanitizeSchema (sanitizeSchema it) = sanitizeSchema it :=
        hIH it (getKey_jsize hit) (allValsOk_fhasval hvals (getKey_fhasval hit))
      rw [hrec, setKey_of_getKey_some hFi]

theorem ap_body_fixpoint {fs : JFields}
    (hvals : allValsOk schemaOk fs = true)
    (hIH : ∀ v, jsize v ≤ fsize fs → schemaOk v = true →
      sanitizeSchema (sanitizeSchema v) = sanitizeSchema v) :
    apPart sanitizeSchema (sanitizeBody sanitizeSchema fs) (sanitizeBody sanitizeSchema fs) =
      sanitizeBody sanitizeSchema fs := by
  rcases hap : getKey fs "additionalProperties" with _ | p
  · have hFa : getKey (sanitizeBody sanitizeSchema fs) "additionalProperties" = none := by
      rw [getKey_body_ap_other (fun a h => by rw [hap] at h; simp at h)
        (fun a h => by rw [hap] at h; simp at h), getKey_nonRec_ap, hap]
      simp
    simp only [apPart, hFa]
  · cases p with
    | obj afs =>
      have hFa : getKey (sanitizeBody sanitizeSchema fs) "additionalProperties" =
          some (.obj (sanitizeBody sanitizeSchema afs)) := by
        rw [getKey_body_ap_obj hap, sanitizeSchema_obj]
      simp only [apPart, hFa]
      have hrec : sanitizeSchema (Json.obj (sanitizeBody sanitizeSchema afs)) =
          Json.obj (sanitizeBody sanitizeSchema afs) := by
        have h2 := hIH (Json.obj afs) (getKey_jsize hap)
          (allValsOk_fhasval hvals (getKey_fhasval hap))
        rw [sanitizeSchema_obj] at h2
        exact h2
      rw [hrec, setKey_of_getKey_some hFa]
    | arr axs =>
      have hFa : getKey (sanitizeBody sanitizeSchema fs) "additionalProperties" =
          some (.arr axs) := by
        rw [getKey_body_ap_arr hap, sanitizeSchema_arr]
      simp only [apPart, hFa]
      rw [sanitizeSchema_arr, setKey_of_getKey_some hFa]
    | null =>
      have hFa : getKey (sanitizeBody sanitizeSchema fs) "additionalProperties" =
          some .null := by
        rw [getKey_body_ap_other (fun a h => by rw [hap] at h; simp at h)
          (fun a h => by rw [hap] at h; simp at h), getKey_nonRec_ap, hap]
        simp
      simp only [apPart, hFa]
    | bool b =>
      cases b with
      | false =>
        have hFa : getKey (sanitizeBody sanitizeSchema fs) "additionalProperties" = none := by
          rw [getKey_body_ap_other (fun a h => by rw [hap] at h; simp at h)
            (fun a h => by rw [hap] at h; simp at h), getKey_nonRec_ap, hap]
          simp
        simp only [apPart, hFa]
      | true =>
        have hFa : getKey (sanitizeBody sanitizeSchema fs) "additionalProperties" =
            some (.bool true) := by
          rw [getKey_body_ap_other (fun a h => by rw [hap] at h; simp at h)
            (fun a h => by rw [hap] at h; simp at h), getKey_nonRec_ap, hap]
          simp
        simp only [apPart, hFa]
    | num n =>
      have hFa : getKey (sanitizeBody sanitizeSchema fs) "additionalProperties" =
          some (.num n) := by
        rw [getKey_body_ap_other (fun a h => by rw [hap] at h; simp at h)
          (fun a h => by rw [hap] at h; simp at h), getKey_nonRec_ap, hap]
        simp
      simp only [apPart, hFa]
    | str s =>
      have hFa : getKey (sanitizeBody sanitizeSchema fs) "additionalProperties" =
          some (.str s) := by
        rw [getKey_body_ap_other (fun a h => by rw [hap] at h; simp at h)
          (fun a h => by rw [hap] at h; simp at h), getKey_nonRec_ap, hap]
        simp
      simp only [apPart, hFa]

theorem body_fixpoint {fs : JFields} (htc : typeCollapseOk fs = true)
    (hvals : allValsOk schemaOk fs = true)
    (hIH : ∀ v, jsize v ≤ fsize fs → schemaOk v = true →
      sanitizeSchema (sanitizeSchema v) = sanitizeSchema v) :
    sanitizeBody sanitizeSchema (sanitizeBody sanitizeSchema fs) =
      sanitizeBody sanitizeSchema fs := by
  show apPart sanitizeSchema (sanitizeBody sanitizeSchema fs)
      (itemsPart sanitizeSchema (sanitizeBody sanitizeSchema fs)
        (propsPart sanitizeSchema (sanitizeBody sanitizeSchema fs)
          (nonRecSteps (sanitizeBody sanitizeSchema fs)))) =
    sanitizeBody sanitizeSchema fs
  rw [nonRec_body_fixpoint htc, props_body_fixpoint hvals hIH,
    items_body_fixpoint hvals hIH, ap_body_fixpoint hvals hIH]

theorem sanitizeSchema_fixpoint :
    ∀ (j : Json), schemaOk j = true →
      sanitizeSchema (sanitizeSchema j) = sanitizeSchema j := by
  suffices H : ∀ (n : Nat) (j : Json), jsize j ≤ n → schemaOk j = true →
      sanitizeSchema (sanitizeSchema j) = sanitizeSchema j by
    exact fun j h => H (jsize j) j le_rfl h
  intro n
  induction n using Nat.strong_induction_on with
  | _ n ih =>
    intro j hn hok
    cases j with
    | null => rfl
    | bool b => rfl
    | num m => rfl
    | str s => rfl
    | arr xs => rw [sanitizeSchema_arr, sanitizeSchema_arr]
    | obj fs =>
      have hsz : jsize (Json.obj fs) = 1 + fsize fs := rfl
      have hIH : ∀ v, jsize v ≤ fsize fs → schemaOk v = true →
          sanitizeSchema (sanitizeSchema v) = sanitizeSchema v := by
        intro v hv hvok
        exact ih (fsize fs) (by omega) v hv hvok
      rw [schemaOk_obj, Bool.and_eq_true] at hok
      rw [sanitizeSchema_obj fs, sanitizeSchema_obj (sanitizeBody sanitizeSchema fs)]
      exact congrArg Json.obj (body_fixpoint hok.1 hok.2 hIH)

/-- Extracts the fields of an object node (used to state per-key results). -/
def objFields : Json → JFields
  | .obj fs => fs
  | _ => .nil

theorem objFields_sanitize (fs : JFields) :
    objFields (sanitizeSchema (.obj fs)) = sanitizeBody sanitizeSchema fs := by
  rw [sanitizeSchema_obj]
  rfl

/-- A representative well-formed schema exercising every rewrite rule. -/
def sampleSchema : Json :=
  .obj (jf [("type", .arr (jl [.str "string", .str "null"])),
    ("minimum", .num 3),
    ("anyOf", .arr .nil),
    ("format", .str "uuid"),
    ("required", .arr .nil),
    ("additionalProperties", .bool false),
    ("properties", .obj (jf [("a", .obj (jf [("$ref", .str "x"),
      ("type", .str "integer"), ("minimum", .num 1)]))])),
    ("items", .obj (jf [("format", .str "date-time")]))])

/-- C2 counterexample: the sanitizer is not idempotent on every JSON value.
A `type` array whose first non-"null" element is itself an array is collapsed
to that inner array on the first pass and collapsed again on the second. -/
theorem sanitizeSchema_not_idempotent :
    sanitizeSchema (sanitizeSchema (.obj (jf [("type",
        .arr (jl [.arr (jl [.str "a"])]))]))) ≠
      sanitizeSchema (.obj (jf [("type", .arr (jl [.arr (jl [.str "a"])]))])) := by
  decide

/-- C2 (amended): the sanitizer is idempotent on every JSON value in which no
`type` key anywhere holds an array whose first non-"null" element is itself an
array (`schemaOk`); the unrestricted claim fails, see
the counterexample with `type` equal to a doubly nested array. -/
theorem sanitizeSchema_idempotent_on_ok (j : Json) (h : schemaOk j = true) :
    sanitizeSchema (sanitizeSchema j) = sanitizeSchema j :=
  sanitizeSchema_fixpoint j h

/-- C2 witness: the amended idempotence theorem applied to a concrete schema
using every rewrite rule. -/
theorem sanitizeSchema_idempotent_on_ok_witness :
    schemaOk sampleSchema = true ∧
      sanitizeSchema (sanitizeSchema sampleSchema) = sanitizeSchema sampleSchema :=
  ⟨by decide, sanitizeSchema_idempotent_on_ok sampleSchema (by decide)⟩

theorem getKey_typeStep_nullable_hasnull {l : JFields} {ts0 : JList} {t' : Json}
    (hT : getKey l "type" = some (.arr ts0)) (hfn : findNonNull ts0 = some t')
    (htr : jsTruthy t' = true) (hhn : hasNullType ts0 = true) :
    getKey (typeStep l) "nullable" = some (.bool true) := by
  simp only [typeStep, hT, hfn]
  rw [if_pos htr, if_pos hhn, getKey_setKey_self]

theorem getKey_typeStep_nullable_nonull {l : JFields} {ts0 : JList} {t' : Json}
    (hT : getKey l "type" = some (.arr ts0)) (hfn : findNonNull ts0 = some t')
    (htr : jsTruthy t' = true) (hhn : hasNullType ts0 = false) :
    getKey (typeStep l) "nullable" = getKey l "nullable" := by
  simp only [typeStep, hT, hfn]
  rw [if_pos htr, if_neg (by simp [hhn]), getKey_setKey_ne (by decide)]

theorem getKey_typeStep_nullable_falsy {l : JFields} {ts0 : JList} {t' : Json}
    (hT : getKey l "type" = some (.arr ts0)) (hfn : findNonNull ts0 = some t')
    (htr : jsTruthy t' = false) :
    getKey (typeStep l) "nullable" = getKey l "nullable" := by
  simp only [typeStep, hT, hfn]
  rw [if_neg (by simp [htr]), getKey_setKey_ne (by decide)]

theorem getKey_typeStep_nullable_nofound {l : JFields} {ts0 : JList}
    (hT : getKey l "type" = some (.arr ts0)) (hfn : findNonNull ts0 = none) :
    getKey (typeStep l) "nullable" = getKey l "nullable" := by
  simp only [typeStep, hT, hfn]
  rw [getKey_setKey_ne (by decide)]

theorem getKey_body_nullable (rec : Json → Json) (fs : JFields) :
    getKey (sanitizeBody rec fs) "nullable" =
      getKey (typeStep (formatStep (dropBannedKeys fs))) "nullable" := by
  unfold sanitizeBody
  rw [getKey_recParts (by decide) (by decide) (by decide)]
  unfold nonRecSteps
  rw [getKey_minMaxStep_ne (by decide) (by decide) (by decide),
    getKey_requiredStep_ne (by decide), getKey_apFalseStep_ne (by decide)]

theorem getKey_preNullable (fs : JFields) :
    getKey (formatStep (dropBannedKeys fs)) "nullable" = getKey fs "nullable" := by
  rw [getKey_formatStep_ne (by decide)]
  unfold dropBannedKeys
  rw [getKey_dropKeys]
  simp [show ("nullable" : String) ∉ geminiBannedKeys by decide]

/-- C7 counterexample: the claim says an array `type` containing "null" gets
`nullable = true`, yet (as the claim's own second instance shows) the code
leaves `nullable` unset when no truthy non-"null" entry exists: the input
`type = ["null"]` contains "null" but sanitizes to an object with no
`nullable` key at all. -/
theorem typeArray_nullable_counterexample :
    sanitizeSchema (.obj (jf [("type", .arr (jl [.str "null"]))])) =
        .obj (jf [("type", .str "string")]) ∧
      hasNullType (jl [.str "null"]) = true ∧
      getKey (objFields (sanitizeSchema (.obj (jf [("type", .arr (jl [.str "null"]))]))))
        "nullable" = none := by
  decide

/-- C7 (amended): for an object node whose `type` is an array, the collapse
sets the scalar type to the first non-"null" entry only when that entry is
truthy, and sets `nullable = true` only when additionally the array contains
"null"; when no non-"null" entry exists or the first one is falsy (for
strings: the empty string), the type falls back to "string" and `nullable` is
left unchanged.  The claim's two concrete instances hold. -/
theorem typeArray_collapse_spec (fs : JFields) (ts : JList)
    (hT : getKey fs "type" = some (.arr ts)) :
    (∀ t, findNonNull ts = some t → jsTruthy t = true →
      getKey (objFields (sanitizeSchema (.obj fs))) "type" = some t ∧
      (hasNullType ts = true →
        getKey (objFields (sanitizeSchema (.obj fs))) "nullable" = some (.bool true)) ∧
      (hasNullType ts = false →
        getKey (objFields (sanitizeSchema (.obj fs))) "nullable" = getKey fs "nullable")) ∧
    (∀ t, findNonNull ts = some t → jsTruthy t = false →
      getKey (objFields (sanitizeSchema (.obj fs))) "type" = some (.str "string") ∧
      getKey (objFields (sanitizeSchema (.obj fs))) "nullable" = getKey fs "nullable") ∧
    (findNonNull ts = none →
      getKey (objFields (sanitizeSchema (.obj fs))) "type" = some (.str "string") ∧
      getKey (objFields (sanitizeSchema (.obj fs))) "nullable" = getKey fs "nullable") ∧
    sanitizeSchema (.obj (jf [("type", .arr (jl [.str "string", .str "null"]))])) =
      .obj (jf [("type", .str "string"), ("nullable", .bool true)]) ∧
    sanitizeSchema (.obj (jf [("type", .arr (jl [.str "null"]))])) =
      .obj (jf [("type", .str "string")]) := by
  have hbt : getKey (objFields (sanitizeSchema (.obj fs))) "type" =
      getKey (typeStep (formatStep (dropBannedKeys fs))) "type" := by
    rw [objFields_sanitize, getKey_body_type]
  have hbn : getKey (objFields (sanitizeSchema (.obj fs))) "nullable" =
      getKey (typeStep (formatStep (dropBannedKeys fs))) "nullable" := by
    rw [objFields_sanitize, getKey_body_nullable]
  have hlT : getKey (formatStep (dropBannedKeys fs)) "type" = some (.arr ts) := by
    rw [getKey_preType, hT]
  refine ⟨?_, ?_, ?_, by decide, by decide⟩
  · intro t hfn htr
    refine ⟨?_, ?_, ?_⟩
    · rw [hbt, getKey_typeStep_arr_found_truthy hlT hfn htr]
    · intro hhn
      rw [hbn, getKey_typeStep_nullable_hasnull hlT hfn htr hhn]
    · intro hhn
      rw [hbn, getKey_typeStep_nullable_nonull hlT hfn htr hhn, getKey_preNullable]
  · intro t hfn htr
    constructor
    · rw [hbt, getKey_typeStep_arr_found_falsy hlT hfn htr]
    · rw [hbn, getKey_typeStep_nullable_falsy hlT hfn htr, getKey_preNullable]
  · intro hfn
    constructor
    · rw [hbt, getKey_typeStep_arr_none hlT hfn]
    · rw [hbn, getKey_typeStep_nullable_nofound hlT hfn, getKey_preNullable]

/-- C7 witness: the amended collapse rule applied to `type = ["number","null"]`. -/
theorem typeArray_collapse_spec_witness :
    getKey (objFields (sanitizeSchema (.obj (jf [("type",
        .arr (jl [.str "number", .str "null"]))])))) "type" = some (.str "number") :=
  (((typeArray_collapse_spec (jf [("type", .arr (jl [.str "number", .str "null"]))])
      (jl [.str "number", .str "null"]) (by decide)).1 (.str "number")
      (by decide) (by decide)).1)

theorem getKey_l5_untouched {k : String} (hbk : k ∉ geminiBannedKeys)
    (h1 : k ≠ "format") (h2 : k ≠ "type") (h3 : k ≠ "nullable")
    (h4 : k ≠ "additionalProperties") (h5 : k ≠ "required") (fs : JFields) :
    getKey (requiredStep (apFalseStep (typeStep (formatStep (dropBannedKeys fs))))) k =
      getKey fs k := by
  rw [getKey_requiredStep_ne h5, getKey_apFalseStep_ne h4, getKey_typeStep_ne h2 h3,
    getKey_formatStep_ne h1]
  unfold dropBannedKeys
  rw [getKey_dropKeys]
  simp [hbk]

/-- C8 counterexample: the claim says `minimum`/`maximum`/`multipleOf` are
removed from a node that carries no type at all, but the code guards the
deletion behind a truthiness check on `clean.type`, so a typeless node keeps
them: `sanitizeSchema` on an object holding only `minimum` is the identity. -/
theorem minMax_typeless_counterexample :
    sanitizeSchema (.obj (jf [("minimum", .num 5)])) = .obj (jf [("minimum", .num 5)]) ∧
      getKey (jf [("minimum", Json.num 5)]) "type" = none := by
  decide

/-- C8 (amended): `minimum`, `maximum` and `multipleOf` are removed exactly
when the node's post-collapse `type` is present, truthy, and not exactly
"number" or "integer"; when the node has no `type` at all, or a falsy one, or
type "number"/"integer", all three keys are preserved. -/
theorem minMax_removal_spec (fs : JFields) :
    (getKey (objFields (sanitizeSchema (.obj fs))) "type" = none →
      getKey (objFields (sanitizeSchema (.obj fs))) "minimum" = getKey fs "minimum" ∧
      getKey (objFields (sanitizeSchema (.obj fs))) "maximum" = getKey fs "maximum" ∧
      getKey (objFields (sanitizeSchema (.obj fs))) "multipleOf" = getKey fs "multipleOf") ∧
    (∀ t, getKey (objFields (sanitizeSchema (.obj fs))) "type" = some t →
      (¬(jsTruthy t = true ∧ t ≠ Json.str "number" ∧ t ≠ Json.str "integer") →
        getKey (objFields (sanitizeSchema (.obj fs))) "minimum" = getKey fs "minimum" ∧
        getKey (objFields (sanitizeSchema (.obj fs))) "maximum" = getKey fs "maximum" ∧
        getKey (objFields (sanitizeSchema (.obj fs))) "multipleOf" = getKey fs "multipleOf") ∧
      (jsTruthy t = true → t ≠ Json.str "number" → t ≠ Json.str "integer" →
        getKey (objFields (sanitizeSchema (.obj fs))) "minimum" = none ∧
        getKey (objFields (sanitizeSchema (.obj fs))) "maximum" = none ∧
        getKey (objFields (sanitizeSchema (.obj fs))) "multipleOf" = none)) := by
  have hbt : getKey (objFields (sanitizeSchema (.obj fs))) "type" =
      getKey (requiredStep (apFalseStep (typeStep (formatStep (dropBannedKeys fs))))) "type" := by
    rw [objFields_sanitize, getKey_body_type, getKey_l5_type]
  have hbmin : getKey (objFields (sanitizeSchema (.obj fs))) "minimum" =
      getKey (minMaxStep (requiredStep (apFalseStep (typeStep (formatStep
        (dropBannedKeys fs)))))) "minimum" := by
    rw [objFields_sanitize]
    have h := getKey_body_minKey (k := "minimum") (by decide) (by decide) (by decide)
      sanitizeSchema fs
    unfold nonRecSteps at h
    exact h
  have hbmax : getKey (objFields (sanitizeSchema (.obj fs))) "maximum" =
      getKey (minMaxStep (requiredStep (apFalseStep (typeStep (formatStep
        (dropBannedKeys fs)))))) "maximum" := by
    rw [objFields_sanitize]
    have h := getKey_body_minKey (k := "maximum") (by decide) (by decide) (by decide)
      sanitizeSchema fs
    unfold nonRecSteps at h
    exact h
  have hbmult : getKey (objFields (sanitizeSchema (.obj fs))) "multipleOf" =
      getKey (minMaxStep (requiredStep (apFalseStep (typeStep (formatStep
        (dropBannedKeys fs)))))) "multipleOf" := by
    rw [objFields_sanitize]
    have h := getKey_body_minKey (k := "multipleOf") (by decide) (by decide) (by decide)
      sanitizeSchema fs
    unfold nonRecSteps at h
    exact h
  constructor
  · intro hrt
    rw [hbt] at hrt
    have hno : minMaxStep (requiredStep (apFalseStep (typeStep (formatStep
        (dropBannedKeys fs))))) = requiredStep (apFalseStep (typeStep (formatStep
        (dropBannedKeys fs)))) := by
      simp only [minMaxStep, hrt]
    rw [hbmin, hbmax, hbmult, hno]
    refine ⟨?_, ?_, ?_⟩
    · exact getKey_l5_untouched (by decide) (by decide) (by decide) (by decide)
        (by decide) (by decide) fs
    · exact getKey_l5_untouched (by decide) (by decide) (by decide) (by decide)
        (by decide) (by decide) fs
    · exact getKey_l5_untouched (by decide) (by decide) (by decide) (by decide)
        (by decide) (by decide) fs
  · intro t hrt
    rw [hbt] at hrt
    constructor
    · intro hnc
      have hno : minMaxStep (requiredStep (apFalseStep (typeStep (formatStep
          (dropBannedKeys fs))))) = requiredStep (apFalseStep (typeStep (formatStep
          (dropBannedKeys fs)))) := by
        apply minMaxStep_noop_type
        intro t' ht'
        rw [hrt] at ht'
        injection ht' with hh
        subst hh
        exact hnc
      rw [hbmin, hbmax, hbmult, hno]
      refine ⟨?_, ?_, ?_⟩
      · exact getKey_l5_untouched (by decide) (by decide) (by decide) (by decide)
          (by decide) (by decide) fs
      · exact getKey_l5_untouched (by decide) (by decide) (by decide) (by decide)
          (by decide) (by decide) fs
      · exact getKey_l5_untouched (by decide) (by decide) (by decide) (by decide)
          (by decide) (by decide) fs
    · intro htr hn1 hn2
      have hdel := minMaxStep_deletes hrt ⟨htr, hn1, hn2⟩
      rw [hbmin, hbmax, hbmult]
      exact hdel

/-- C8 witness: a node typed "string" has its `minimum` removed, a node typed
"integer" keeps it, and these follow from the amended removal rule. -/
theorem minMax_removal_spec_witness :
    getKey (objFields (sanitizeSchema (.obj (jf [("minimum", .num 5),
        ("type", .str "string")])))) "minimum" = none ∧
    getKey (objFields (sanitizeSchema (.obj (jf [("minimum", .num 5),
        ("type", .str "integer")])))) "minimum" = some (.num 5) :=
  ⟨(((minMax_removal_spec (jf [("minimum", .num 5), ("type", .str "string")])).2
      (.str "string") (by decide)).2 (by decide) (by decide) (by decide)).1,
    by
      have h := (((minMax_removal_spec (jf [("minimum", .num 5),
        ("type", .str "integer")])).2 (.str "integer") (by decide)).1 (by decide)).1
      rw [h]
      decide⟩

/-!
The schema sanitizer of the earlier single-user proxy, `src/gemini-proxy.js`
(`sanitizeSchema`, lines 23-112), embedded independently with its own
definitions so the two versions can be compared.
-/

/-- Keys deleted unconditionally by the v1 sanitizer. -/
def geminiBannedKeysV1 : List String :=
  ["$ref", "$schema", "$id", "definitions", "$defs",
   "anyOf", "oneOf", "allOf", "not",
   "exclusiveMaximum", "exclusiveMinimum", "const", "contentEncoding", "contentMediaType",
   "prefixItems", "contains", "minContains", "maxContains",
   "propertyNames", "patternProperties", "dependentSchemas", "dependentRequired"]

/-- The v1 unconditional `delete` block. -/
def dropBannedKeysV1 (fs : JFields) : JFields :=
  dropKeys fs geminiBannedKeysV1

/-- The v1 `format` rule. -/
def formatStepV1 (l : JFields) : JFields :=
  match getKey l "format" with
  | some f =>
    if jsTruthy f ∧ f ≠ Json.str "enum" ∧ f ≠ Json.str "date-time"
    then eraseKey l "format" else l
  | none => l

/-- The v1 `type`-array collapse. -/
def typeStepV1 (l : JFields) : JFields :=
  match getKey l "type" with
  | some (.arr ts) =>
    match findNonNull ts with
    | some t =>
      if jsTruthy t then
        if hasNullType ts
        then setKey (setKey l "type" t) "nullable" (.bool true)
        else setKey l "type" t
      else setKey l "type" (.str "string")
    | none => setKey l "type" (.str "string")
  | _ => l

/-- The v1 `additionalProperties === false` deletion. -/
def apFalseStepV1 (l : JFields) : JFields :=
  if getKey l "additionalProperties" = some (.bool false)
  then eraseKey l "additionalProperties" else l

/-- The v1 empty-`required` deletion. -/
def requiredStepV1 (l : JFields) : JFields :=
  match getKey l "required" with
  | some (.arr .nil) => eraseKey l "required"
  | _ => l

/-- The v1 numeric-bound deletion. -/
def minMaxStepV1 (l : JFields) : JFields :=
  match getKey l "type" with
  | some t =>
    if jsTruthy t ∧ t ≠ Json.str "number" ∧ t ≠ Json.str "integer"
    then eraseKey (eraseKey (eraseKey l "minimum") "maximum") "multipleOf" else l
  | none => l

/-- The v1 recursion into `properties`. -/
def propsPartV1 (rec : Json → Json) (fs l : JFields) : JFields :=
  match getKey fs "properties" with
  | some (.obj pfs) => setKey l "properties" (.obj (mapVals rec pfs))
  | some (.arr ps) => setKey l "properties" (.obj (indexedVals rec 0 ps))
  | _ => l

/-- The v1 recursion into `items`. -/
def itemsPartV1 (rec : Json → Json) (fs l : JFields) : JFields :=
  match getKey fs "items" with
  | some it => if jsTruthy it then setKey l "items" (rec it) else l
  | none => l

/-- The v1 recursion into `additionalProperties`. -/
def apPartV1 (rec : Json → Json) (fs l : JFields) : JFields :=
  match getKey fs "additionalProperties" with
  | some (.obj afs) => setKey l "additionalProperties" (rec (.obj afs))
  | some (.arr axs) => setKey l "additionalProperties" (rec (.arr axs))
  | _ => l

/-- One unfolding of the v1 sanitizer on an object node. -/
def sanitizeBodyV1 (rec : Json → Json) (fs : JFields) : JFields :=
  apPartV1 rec fs (itemsPartV1 rec fs (propsPartV1 rec fs
    (minMaxStepV1 (requiredStepV1 (apFalseStepV1 (typeStepV1
      (formatStepV1 (dropBannedKeysV1 fs))))))))

/-- Fuel-indexed v1 sanitizer. -/
def sanitizeFuelV1 : Nat → Json → Json
  | _, .null => .null
  | _, .bool b => .bool b
  | _, .num n => .num n
  | _, .str s => .str s
  | _, .arr xs => .arr xs
  | 0, .obj fs => .obj fs
  | n + 1, .obj fs => .obj (sanitizeBodyV1 (sanitizeFuelV1 n) fs)

/-- `sanitizeSchema` of src/gemini-proxy.js. -/
def sanitizeSchemaV1 (j : Json) : Json :=
  sanitizeFuelV1 (jsize j) j

theorem dropBannedKeysV1_eq : dropBannedKeysV1 = dropBannedKeys := rfl

theorem formatStepV1_eq : formatStepV1 = formatStep := rfl

theorem typeStepV1_eq : typeStepV1 = typeStep := rfl

theorem apFalseStepV1_eq : apFalseStepV1 = apFalseStep := rfl

theorem requiredStepV1_eq : requiredStepV1 = requiredStep := rfl

theorem minMaxStepV1_eq : minMaxStepV1 = minMaxStep := rfl

theorem propsPartV1_eq : propsPartV1 = propsPart := rfl

theorem itemsPartV1_eq : itemsPartV1 = itemsPart := rfl

theorem apPartV1_eq : apPartV1 = apPart := rfl

theorem sanitizeBodyV1_eq_sanitizeBody :
    ∀ (rec : Json → Json) (fs : JFields), sanitizeBodyV1 rec fs = sanitizeBody rec fs := by
  intro rec fs
  unfold sanitizeBodyV1 sanitizeBody nonRecSteps
  rw [apPartV1_eq, itemsPartV1_eq, propsPartV1_eq, minMaxStepV1_eq, requiredStepV1_eq,
    apFalseStepV1_eq, typeStepV1_eq, formatStepV1_eq, dropBannedKeysV1_eq]

theorem sanitizeFuelV1_eq_sanitizeFuel :
    ∀ (n : Nat) (j : Json), sanitizeFuelV1 n j = sanitizeFuel n j := by
  intro n
  induction n with
  | zero => intro j; cases j <;> rfl
  | succ n ih =>
    intro j
    cases j with
    | null => rfl
    | bool b => rfl
    | num m => rfl
    | str s => rfl
    | arr xs => rfl
    | obj fs =>
      show Json.obj (sanitizeBodyV1 (sanitizeFuelV1 n) fs) =
        Json.obj (sanitizeBody (sanitizeFuel n) fs)
      rw [sanitizeBodyV1_eq_sanitizeBody, funext ih]

/-- C10: the schema sanitizer of the earlier single-user proxy
(src/gemini-proxy.js) and the one of the per-conversation proxy
(src/unnamed/part_000) are extensionally equal: they compute the same result
on every JSON value. -/
theorem sanitizeSchemaV1_eq_sanitizeSchema (j : Json) :
    sanitizeSchemaV1 j = sanitizeSchema j :=
  sanitizeFuelV1_eq_sanitizeFuel (jsize j) j

/-!
The per-conversation signature store and its sweep, `cleanupSignatures` of
src/unnamed/part_000 (lines 60-90).  A conversation map holds
tool-call-id-keyed records; the sweep drops records older than one hour,
drops conversations whose map became empty, and trims each remaining map to
the 100 newest records (sort ascending by timestamp, delete the oldest by id).
-/

structure SigRecord where
  signature : String
  timestamp : Int
deriving DecidableEq

abbrev SigMap := List (String × SigRecord)

abbrev SigStore := List (String × SigMap)

/-- One hour in milliseconds (`60 * 60 * 1000`). -/
def signatureTTLMs : Int := 60 * 60 * 1000

/-- Per-conversation record cap. -/
def maxSignaturesPerConversation : Nat := 100

/-- The TTL pass: a record is deleted exactly when `timestamp < now - TTL`. -/
def ttlFilter (now : Int) (m : SigMap) : SigMap :=
  m.filter (fun p => !(decide (p.2.timestamp < now - signatureTTLMs)))

/-- Stable insertion by timestamp: an element lands after all existing
records with a less-or-equal timestamp, matching a stable ascending sort. -/
def insertByTimestamp (x : String × SigRecord) : SigMap → SigMap
  | [] => [x]
  | y :: ys =>
    if x.2.timestamp < y.2.timestamp then x :: y :: ys else y :: insertByTimestamp x ys

/-- Insertion-sort loop (elements are inserted left to right). -/
def sortGo : SigMap → SigMap → SigMap
  | acc, [] => acc
  | acc, y :: ys => sortGo (insertByTimestamp y acc) ys

/-- `entries.sort((a, b) => a[1].timestamp - b[1].timestamp)`: stable
ascending sort by timestamp. -/
def sortByTimestamp (m : SigMap) : SigMap :=
  sortGo [] m

/-- The capacity pass: when more than 100 records remain, the ids of the
oldest `size - 100` records (in sorted order) are deleted from the map. -/
def capTrim (m1 : SigMap) : SigMap :=
  if m1.length > maxSignaturesPerConversation then
    m1.filter (fun p => decide (p.1 ∉
      ((sortByTimestamp m1).take (m1.length - maxSignaturesPerConversation)).map Prod.fst))
  else m1

/-- `cleanupSignatures`: per conversation, TTL-filter, drop if empty, else
cap-trim; conversation iteration order is preserved. -/
def cleanupSignatures (now : Int) (store : SigStore) : SigStore :=
  store.filterMap (fun entry =>
    let m1 := ttlFilter now entry.2
    if m1.length = 0 then none else some (entry.1, capTrim m1))

theorem insertByTimestamp_perm (x : String × SigRecord) :
    ∀ (l : SigMap), (insertByTimestamp x l).Perm (x :: l)
  | [] => List.Perm.refl _
  | y :: ys => by
    simp only [insertByTimestamp]
    split
    · exact List.Perm.refl _
    · exact ((insertByTimestamp_perm x ys).cons y).trans (List.Perm.swap x y ys)

theorem sortGo_perm : ∀ (l acc : SigMap), (sortGo acc l).Perm (acc ++ l)
  | [], acc => by simp [sortGo]
  | y :: ys, acc => by
    simp only [sortGo]
    refine (sortGo_perm ys (insertByTimestamp y acc)).trans ?_
    refine (((insertByTimestamp_perm y acc).append_right ys).trans ?_)
    exact (List.perm_middle).symm

theorem sortByTimestamp_perm (m : SigMap) : (sortByTimestamp m).Perm m :=
  sortGo_perm m []

/-- Ascending-by-timestamp ordering between records. -/
def tsLe (a b : String × SigRecord) : Prop :=
  a.2.timestamp ≤ b.2.timestamp

theorem insertByTimestamp_sorted {x : String × SigRecord} :
    ∀ {l : SigMap}, l.Pairwise tsLe → (insertByTimestamp x l).Pairwise tsLe
  | [], _ => by simp [insertByTimestamp, List.Pairwise]
  | y :: ys, h => by
    rw [List.pairwise_cons] at h
    simp only [insertByTimestamp]
    split
    · rename_i hlt
      rw [List.pairwise_cons]
      constructor
      · intro b hb
        rw [List.mem_cons] at hb
        rcases hb with hb | hb
        · subst hb
          exact le_of_lt hlt
        · exact le_trans (le_of_lt hlt) (h.1 b hb)
      · rw [List.pairwise_cons]
        exact h
    · rename_i hge
      rw [List.pairwise_cons]
      constructor
      · intro b hb
        rw [(insertByTimestamp_perm x ys).mem_iff, List.mem_cons] at hb
        rcases hb with hb | hb
        · subst hb
          exact le_of_not_lt hge
        · exact h.1 b hb
      · exact insertByTimestamp_sorted h.2

theorem sortGo_sorted : ∀ (l acc : SigMap), acc.Pairwise tsLe → (sortGo acc l).Pairwise tsLe
  | [], _, h => h
  | y :: ys, acc, h => sortGo_sorted ys (insertByTimestamp y acc) (insertByTimestamp_sorted h)

theorem sortByTimestamp_sorted (m : SigMap) : (sortByTimestamp m).Pairwise tsLe :=
  sortGo_sorted m [] (by simp)

theorem keyUnique {α β : Type} {l : List (α × β)} (h : (l.map Prod.fst).Nodup) :
    ∀ {a b : α × β}, a ∈ l → b ∈ l → a.1 = b.1 → a = b := by
  induction l with
  | nil => intro a b ha; simp at ha
  | cons x xs ih =>
    intro a b ha hb hab
    simp only [List.map_cons, List.nodup_cons] at h
    rw [List.mem_cons] at ha hb
    rcases ha with ha | ha <;> rcases hb with hb | hb
    · rw [ha, hb]
    · exfalso
      apply h.1
      subst ha
      rw [hab]
      exact List.mem_map_of_mem Prod.fst hb
    · exfalso
      apply h.1
      subst hb
      rw [← hab]
      exact List.mem_map_of_mem Prod.fst ha
    · exact ih h.2 ha hb hab

theorem trim_aux {m1 sorted : SigMap} {k : Nat} (hperm : sorted.Perm m1)
    (hsortP : sorted.Pairwise tsLe) (hnodup : (m1.map Prod.fst).Nodup) :
    (m1.filter (fun p => decide (p.1 ∉ (sorted.take k).map Prod.fst))).length =
      m1.length - k ∧
    (∀ r ∈ m1, r ∉ m1.filter (fun p => decide (p.1 ∉ (sorted.take k).map Prod.fst)) →
      ∀ s ∈ m1.filter (fun p => decide (p.1 ∉ (sorted.take k).map Prod.fst)),
        r.2.timestamp ≤ s.2.timestamp) := by
  have hkeysS : (sorted.map Prod.fst).Nodup := ((hperm.map Prod.fst).nodup_iff).mpr hnodup
  have hsplit : sorted.take k ++ sorted.drop k = sorted := List.take_append_drop k sorted
  have hdisj : ((sorted.take k).map Prod.fst).Disjoint ((sorted.drop k).map Prod.fst) := by
    have hss : ((sorted.take k).map Prod.fst ++ (sorted.drop k).map Prod.fst).Nodup := by
      rw [← List.map_append, hsplit]
      exact hkeysS
    exact (List.nodup_append.mp hss).2.2
  have hfs : sorted.filter (fun p => decide (p.1 ∉ (sorted.take k).map Prod.fst)) =
      sorted.drop k := by
    have h1 : (sorted.take k).filter
        (fun p => decide (p.1 ∉ (sorted.take k).map Prod.fst)) = [] := by
      rw [List.filter_eq_nil_iff]
      intro a ha
      have hmem : a.1 ∈ (sorted.take k).map Prod.fst := List.mem_map_of_mem Prod.fst ha
      exact fun hdec => (of_decide_eq_true hdec) hmem
    have h2 : (sorted.drop k).filter
        (fun p => decide (p.1 ∉ (sorted.take k).map Prod.fst)) = sorted.drop k := by
      rw [List.filter_eq_self]
      intro a ha
      have hmem : a.1 ∈ (sorted.drop k).map Prod.fst := List.mem_map_of_mem Prod.fst ha
      exact decide_eq_true (fun hc => hdisj hc hmem)
    have hfa := List.filter_append
      (p := fun p : String × SigRecord => decide (p.1 ∉ (sorted.take k).map Prod.fst))
      (sorted.take k) (sorted.drop k)
    rw [hsplit, h1, h2] at hfa
    rw [hfa]
    simp
  have hpermF : (m1.filter (fun p => decide (p.1 ∉ (sorted.take k).map Prod.fst))).Perm
      (sorted.drop k) := by
    rw [← hfs]
    exact hperm.symm.filter _
  constructor
  · rw [hpermF.length_eq, List.length_drop, hperm.length_eq]
  · intro r hr hrn s hs
    have hrs : r ∈ sorted := hperm.mem_iff.mpr hr
    have hrkey : r.1 ∈ (sorted.take k).map Prod.fst := by
      by_contra hc
      apply hrn
      rw [List.mem_filter]
      exact ⟨hr, decide_eq_true hc⟩
    obtain ⟨b, hb, hbk⟩ := List.mem_map.mp hrkey
    have hbm : b ∈ m1 := hperm.mem_iff.mp (List.Sublist.mem hb (List.take_sublist k sorted))
    have hbr : b = r := keyUnique hnodup hbm hr hbk
    rw [hbr] at hb
    have hsd : s ∈ sorted.drop k := hpermF.mem_iff.mp hs
    have hpw : (sorted.take k ++ sorted.drop k).Pairwise tsLe := by
      rw [hsplit]
      exact hsortP
    exact (List.pairwise_append.mp hpw).2.2 r hb s hsd

theorem capTrim_spec {m1 : SigMap} (hnodup : (m1.map Prod.fst).Nodup)
    (hlen : m1.length > maxSignaturesPerConversation) :
    (capTrim m1).length = maxSignaturesPerConversation ∧
    (∀ r ∈ m1, r ∉ capTrim m1 → ∀ s ∈ capTrim m1, r.2.timestamp ≤ s.2.timestamp) := by
  have haux := trim_aux (k := m1.length - maxSignaturesPerConversation)
    (sortByTimestamp_perm m1) (sortByTimestamp_sorted m1) hnodup
  have hcap : capTrim m1 = m1.filter (fun p => decide (p.1 ∉
      ((sortByTimestamp m1).take (m1.length - maxSignaturesPerConversation)).map
        Prod.fst)) := by
    unfold capTrim
    rw [if_pos hlen]
  constructor
  · rw [hcap, haux.1]
    unfold maxSignaturesPerConversation at hlen ⊢
    omega
  · rw [hcap]
    exact haux.2

theorem capTrim_subset {m1 : SigMap} {r : String × SigRecord} (h : r ∈ capTrim m1) :
    r ∈ m1 := by
  unfold capTrim at h
  split at h
  · exact (List.mem_filter.mp h).1
  · exact h

theorem capTrim_of_le {m1 : SigMap} (h : ¬ m1.length > maxSignaturesPerConversation) :
    capTrim m1 = m1 := by
  unfold capTrim
  rw [if_neg h]

/-- C3: the sweep keeps, per conversation, exactly the records whose
timestamp is within the one-hour TTL of `now`; every conversation whose map
becomes empty is removed from the store; and a conversation whose filtered
map exceeds the 100-record cap is trimmed to exactly 100 records, the evicted
ones having timestamps no newer than any kept record. -/
theorem cleanupSignatures_spec (store : SigStore) (now : Int)
    (hkeys : (store.map Prod.fst).Nodup)
    (hmaps : ∀ p ∈ store, (p.2.map Prod.fst).Nodup) :
    (∀ q ∈ cleanupSignatures now store, ∀ r ∈ q.2,
      now - signatureTTLMs ≤ r.2.timestamp) ∧
    (∀ q ∈ cleanupSignatures now store, q.2 ≠ []) ∧
    (∀ p ∈ store, ∀ r, r ∈ ttlFilter now p.2 ↔
      (r ∈ p.2 ∧ now - signatureTTLMs ≤ r.2.timestamp)) ∧
    (∀ p ∈ store,
      (ttlFilter now p.2 = [] → ∀ m', (p.1, m') ∉ cleanupSignatures now store) ∧
      (ttlFilter now p.2 ≠ [] →
        (p.1, capTrim (ttlFilter now p.2)) ∈ cleanupSignatures now store)) ∧
    (∀ p ∈ store,
      (¬ (ttlFilter now p.2).length > maxSignaturesPerConversation →
        capTrim (ttlFilter now p.2) = ttlFilter now p.2) ∧
      ((ttlFilter now p.2).length > maxSignaturesPerConversation →
        (capTrim (ttlFilter now p.2)).length = maxSignaturesPerConversation ∧
        (∀ r ∈ ttlFilter now p.2, r ∉ capTrim (ttlFilter now p.2) →
          ∀ s ∈ capTrim (ttlFilter now p.2), r.2.timestamp ≤ s.2.timestamp))) := by
  have httl : ∀ (m : SigMap) (r : String × SigRecord), r ∈ ttlFilter now m ↔
      (r ∈ m ∧ now - signatureTTLMs ≤ r.2.timestamp) := by
    intro m r
    unfold ttlFilter
    rw [List.mem_filter]
    constructor
    · rintro ⟨h1, h2⟩
      refine ⟨h1, ?_⟩
      simp only [Bool.not_eq_true', decide_eq_false_iff_not, Int.not_lt] at h2
      exact h2
    · rintro ⟨h1, h2⟩
      refine ⟨h1, ?_⟩
      simp only [Bool.not_eq_true', decide_eq_false_iff_not, Int.not_lt]
      exact h2
  have hmem : ∀ q, q ∈ cleanupSignatures now store ↔
      ∃ p ∈ store, ttlFilter now p.2 ≠ [] ∧ q = (p.1, capTrim (ttlFilter now p.2)) := by
    intro q
    unfold cleanupSignatures
    rw [List.mem_filterMap]
    constructor
    · rintro ⟨p, hp, hf⟩
      by_cases hz : (ttlFilter now p.2).length = 0
      · simp only [hz, if_pos] at hf
        exact absurd hf (by simp)
      · simp only [hz, if_neg, if_false] at hf
        refine ⟨p, hp, ?_, ?_⟩
        · intro hc
          apply hz
          rw [hc]
          rfl
        · exact (Option.some.inj hf).symm
    · rintro ⟨p, hp, hne, hq⟩
      refine ⟨p, hp, ?_⟩
      have hz : ¬ (ttlFilter now p.2).length = 0 := by
        intro hc
        exact hne (List.length_eq_zero.mp hc)
      simp only [hz, if_neg, if_false]
      exact congrArg some hq.symm
  refine ⟨?_, ?_, ?_, ?_, ?_⟩
  · intro q hq r hr
    obtain ⟨p, hp, hne, hq'⟩ := (hmem q).mp hq
    have hr2 : r ∈ ttlFilter now p.2 := by
      apply capTrim_subset
      rw [hq'] at hr
      exact hr
    exact ((httl p.2 r).mp hr2).2
  · intro q hq
    obtain ⟨p, hp, hne, hq'⟩ := (hmem q).mp hq
    rw [hq']
    show capTrim (ttlFilter now p.2) ≠ []
    intro hc
    by_cases hlen : (ttlFilter now p.2).length > maxSignaturesPerConversation
    · have hnodup : ((ttlFilter now p.2).map Prod.fst).Nodup := by
        have hsub : (ttlFilter now p.2).Sublist p.2 := List.filter_sublist p.2
        exact List.Nodup.sublist (List.Sublist.map Prod.fst hsub) (hmaps p hp)
      have := (capTrim_spec hnodup hlen).1
      rw [hc] at this
      simp [maxSignaturesPerConversation] at this
    · rw [capTrim_of_le hlen] at hc
      exact hne hc
  · intro p hp r
    exact httl p.2 r
  · intro p hp
    constructor
    · intro hempty m' hcontra
      obtain ⟨p', hp', hne', heq⟩ := (hmem _).mp hcontra
      have hk : p'.1 = p.1 := by
        have := congrArg Prod.fst heq
        exact this.symm
      have hpp : p' = p := keyUnique hkeys hp' hp hk
      rw [hpp] at hne'
      exact hne' hempty
    · intro hne
      exact (hmem _).mpr ⟨p, hp, hne, rfl⟩
  · intro p hp
    constructor
    · intro hlen
      exact capTrim_of_le hlen
    · intro hlen
      have hnodup : ((ttlFilter now p.2).map Prod.fst).Nodup := by
        have hsub : (ttlFilter now p.2).Sublist p.2 := List.filter_sublist p.2
        exact List.Nodup.sublist (List.Sublist.map Prod.fst hsub) (hmaps p hp)
      exact capTrim_spec hnodup hlen

/-- C3 witness: a concrete two-record store at a concrete time; the record
that is 45 minutes old survives the sweep, and the conversation entry is
present with its trimmed map. -/
theorem cleanupSignatures_spec_witness :
    ("auto:abc", capTrim (ttlFilter 3700000
        [("call_1", SigRecord.mk "sig1" 1000), ("call_2", SigRecord.mk "sig2" 3650000)])) ∈
      cleanupSignatures 3700000 [("auto:abc",
        [("call_1", SigRecord.mk "sig1" 1000), ("call_2", SigRecord.mk "sig2" 3650000)])] :=
  ((cleanupSignatures_spec
      [("auto:abc", [("call_1", SigRecord.mk "sig1" 1000),
        ("call_2", SigRecord.mk "sig2" 3650000)])] 3700000
      (by decide) (by decide)).2.2.2.1
    ("auto:abc", [("call_1", SigRecord.mk "sig1" 1000),
      ("call_2", SigRecord.mk "sig2" 3650000)]) (by decide)).2 (by decide)

/-!
The retry orchestrator, `makeRequestWithRetry` of src/unnamed/part_000
(lines 419-688), modelled as a loop over a sequence of per-attempt outcomes.
An attempt either resolves (an upstream response, possibly in streaming mode,
with the flag recording whether response bytes were already forwarded to the
client) or rejects (a transport-level error such as a connection failure or a
fired timeout; `bytesForwarded` records whether the failure happened after
streaming output had started).  The loop mirrors the source: a resolved
streaming result returns immediately; a 429 retries with the long backoff
table (or the Retry-After header) while attempts remain; a 503 retries with
1s/2s/4s for the first three attempt indices; any other resolution is
returned; a rejection retries with exponential backoff unless it happened on
the final attempt, in which case it is rethrown.  The `bytesForwarded` flag
is carried but never consulted, exactly as in the source.
-/

inductive AttemptResult where
  | resolved (statusCode : Nat) (retryAfter : Option Nat) (body : String)
      (streaming : Bool) (bytesForwarded : Bool)
  | rejected (message : String) (bytesForwarded : Bool)
deriving DecidableEq

inductive RetryOutcome where
  | returned (statusCode : Nat) (body : String) (streaming : Bool)
  | threw (message : String)
deriving DecidableEq

/-- The Retry-After header of a resolved attempt, if any. -/
def retryAfterOf : AttemptResult → Option Nat
  | .resolved _ ra _ _ _ => ra
  | .rejected _ _ => none

/-- The long 429 backoff table (`delays` in the source). -/
def backoff429 : List Nat := [2000, 5000, 10000, 20000, 40000]

/-- Delay before retrying a 429: `Retry-After` seconds when the header is
present, else the table entry at the attempt index, clamped to the last. -/
def delay429 (attempt : Nat) (retryAfter : Option Nat) : Nat :=
  match retryAfter with
  | some s => s * 1000
  | none => backoff429.getD attempt 40000

/-- The retry budget (`maxRetries = 5`). -/
def maxRetries : Nat := 5

/-- The attempt loop.  Returns the attempted indices, the backoff delays
slept, and the final outcome. -/
def retryLoop (attempts : Nat → AttemptResult) :
    Nat → Nat → List Nat → List Nat → List Nat × List Nat × RetryOutcome
  | 0, _, tried, delays => (tried, delays, .threw "loop exhausted")
  | fuel + 1, attempt, tried, delays =>
    match attempts attempt with
    | .resolved status ra body streaming _ =>
      if streaming then (tried ++ [attempt], delays, .returned status body true)
      else if status = 429 ∧ attempt < maxRetries - 1 then
        retryLoop attempts fuel (attempt + 1) (tried ++ [attempt])
          (delays ++ [delay429 attempt ra])
      else if status = 503 ∧ attempt < 3 then
        retryLoop attempts fuel (attempt + 1) (tried ++ [attempt])
          (delays ++ [2 ^ attempt * 1000])
      else (tried ++ [attempt], delays, .returned status body false)
    | .rejected msg _ =>
      if attempt = maxRetries - 1 then (tried ++ [attempt], delays, .threw msg)
      else retryLoop attempts fuel (attempt + 1) (tried ++ [attempt])
        (delays ++ [1000 * 2 ^ attempt])

/-- `makeRequestWithRetry` with the default budget of 5 attempts. -/
def makeRequestWithRetry (attempts : Nat → AttemptResult) :
    List Nat × List Nat × RetryOutcome :=
  retryLoop attempts maxRetries 0 [] []

theorem retryLoop_429 (attempts : Nat → AttemptResult) {s : Nat} {ra : Option Nat}
    {body : String} {bf : Bool} :
    ∀ (k a : Nat) (tried delays : List Nat), a + k ≤ 4 →
    (∀ i, a ≤ i → i < a + k → ∃ ra' body' bf',
      attempts i = .resolved 429 ra' body' false bf') →
    attempts (a + k) = .resolved s ra body false bf →
    (a + k = 4 ∨ (s ≠ 429 ∧ s ≠ 503)) →
    retryLoop attempts (5 - a) a tried delays =
      (tried ++ List.range' a (k + 1),
        delays ++ (List.range' a k).map (fun i => delay429 i (retryAfterOf (attempts i))),
        .returned s body false) := by
  intro k
  induction k with
  | zero =>
    intro a tried delays ha h429 hks hstop
    have hfuel : 5 - a = (4 - a) + 1 := by omega
    rw [hfuel]
    simp only [retryLoop]
    rw [show a + 0 = a from rfl] at hks
    rw [hks]
    simp only
    have hnr : ¬ (s = 429 ∧ a < maxRetries - 1) ∧ ¬ (s = 503 ∧ a < 3) := by
      rcases hstop with h4 | ⟨hs1, hs2⟩
      · simp only [Nat.add_zero] at h4
        subst h4
        unfold maxRetries
        omega
      · exact ⟨fun hc => hs1 hc.1, fun hc => hs2 hc.1⟩
    rw [if_neg hnr.1, if_neg hnr.2]
    simp [List.range'_succ]
  | succ k ih =>
    intro a tried delays ha h429 hks hstop
    obtain ⟨ra0, body0, bf0, h0⟩ := h429 a (le_refl a) (by omega)
    have hfuel : 5 - a = (4 - a) + 1 := by omega
    rw [hfuel]
    simp only [retryLoop]
    rw [h0]
    simp only
    rw [if_pos (show True ∧ a < maxRetries - 1 from ⟨trivial, by unfold maxRetries; omega⟩)]
    have hfuel2 : 4 - a = 5 - (a + 1) := by omega
    rw [hfuel2]
    have harg : a + 1 + k = a + (k + 1) := by omega
    have := ih (a + 1) (tried ++ [a]) (delays ++ [delay429 a ra0])
      (by omega)
      (fun i hi1 hi2 => h429 i (by omega) (by omega))
      (by rw [harg]; exact hks)
      (by rw [harg]; exact hstop)
    rw [this]
    have hra : retryAfterOf (attempts a) = ra0 := by rw [h0]; rfl
    rw [List.range'_succ a (k + 1) 1, List.range'_succ a k 1]
    simp [hra]

/-- C4: for a non-streaming request, consecutive 429 responses are retried
with the backoff table 2s/5s/10s/20s/40s indexed by attempt (clamped to the
last entry), a present Retry-After header (in seconds) overriding the table;
after 5 consecutive 429 responses the budget is exhausted and the last 429
outcome itself (status and body) is returned, not a synthetic error. -/
theorem makeRequestWithRetry_429_policy (attempts : Nat → AttemptResult)
    (k : Nat) (s : Nat) (ra : Option Nat) (body : String) (bf : Bool)
    (hk : k ≤ 4)
    (h429 : ∀ i, i < k → ∃ ra' body' bf', attempts i = .resolved 429 ra' body' false bf')
    (hks : attempts k = .resolved s ra body false bf)
    (hstop : k = 4 ∨ (s ≠ 429 ∧ s ≠ 503)) :
    makeRequestWithRetry attempts =
      (List.range (k + 1),
        (List.range k).map (fun i => delay429 i (retryAfterOf (attempts i))),
        .returned s body false) ∧
    (∀ i, delay429 i none = backoff429.getD i 40000) ∧
    (∀ n i, delay429 i (some n) = n * 1000) := by
  refine ⟨?_, fun i => rfl, fun n i => rfl⟩
  have h := retryLoop_429 attempts k 0 [] [] (by omega)
    (fun i hi1 hi2 => h429 i (by omega)) (by simpa using hks)
    (by simpa using hstop)
  unfold makeRequestWithRetry
  rw [show maxRetries = 5 - 0 from rfl, h]
  rw [List.range_eq_range', List.range_eq_range']
  simp

/-- C4 witness: five consecutive 429 responses with no Retry-After sleep
2s, 5s, 10s and 20s and return the final 429 body. -/
theorem makeRequestWithRetry_429_policy_witness :
    makeRequestWithRetry (fun _ => .resolved 429 none "ratelimited" false false) =
      ([0, 1, 2, 3, 4], [2000, 5000, 10000, 20000],
        .returned 429 "ratelimited" false) := by
  have h := (makeRequestWithRetry_429_policy
    (fun _ => .resolved 429 none "ratelimited" false false)
    4 429 none "ratelimited" false (by decide)
    (fun i _ => ⟨none, "ratelimited", false, rfl⟩) rfl (Or.inl rfl)).1
  rw [h]
  rfl

/-- C5 (code bug): a streaming attempt that has forwarded bytes to the client
and then fails (for example the 30-second idle timeout firing mid-stream)
rejects into the generic catch handler, which starts another upstream attempt
after a 1-second backoff — the attempted-index trace is [0, 1] even though
attempt 0 carries `bytesForwarded = true`.  The claim says no further attempt
is ever made once a byte has been forwarded. -/
theorem streaming_midstream_failure_is_retried :
    makeRequestWithRetry (fun i => if i = 0 then
        AttemptResult.rejected "Idle timeout - no data for 30s" true
      else AttemptResult.resolved 200 none "data: chunk" true false) =
      ([0, 1], [1000], .returned 200 "data: chunk" true) ∧
    (fun i => if i = 0 then AttemptResult.rejected "Idle timeout - no data for 30s" true
      else AttemptResult.resolved 200 none "data: chunk" true false) 0 =
      AttemptResult.rejected "Idle timeout - no data for 30s" true := by
  constructor
  · rfl
  · rfl

/-!
The streaming signature extractor, `extractSignaturesFromStreamChunks` of
src/unnamed/part_000 (lines 358-417).  Streaming responses deliver tool calls
incrementally: each SSE chunk carries choices, each choice a delta, each delta
a list of tool-call fragments addressed by `index`.  Fragments are merged into
per-index accumulator slots; field presence is `Option`, and the source's JS
truthiness tests on strings (`if (toolCallDelta.id)`, …) are the explicit
non-empty checks.  When a merged slot holds both a truthy id and a truthy
`extra_content?.google?.thought_signature`, the pair is committed to the
conversation's signature map.
-/

structure GoogleExtra where
  thought_signature : Option String
deriving DecidableEq

structure ExtraContent where
  google : Option GoogleExtra
deriving DecidableEq

structure FunctionDelta where
  name : Option String
  arguments : Option String
deriving DecidableEq

structure ToolCallDelta where
  index : Option Nat
  id : Option String
  function : Option FunctionDelta
  extra_content : Option ExtraContent
deriving DecidableEq

structure Delta where
  tool_calls : Option (List ToolCallDelta)
deriving DecidableEq

structure Choice where
  delta : Option Delta
deriving DecidableEq

structure Chunk where
  choices : Option (List Choice)
deriving DecidableEq

/-- The per-index accumulator created as
`x7b id: null, function: x7b name: null, arguments: '' x7d, extra_content: null x7d`. -/
structure AccSlot where
  id : Option String
  name : Option String
  arguments : String
  extra_content : Option ExtraContent
deriving DecidableEq

def freshSlot : AccSlot := ⟨none, none, "", none⟩

/-- JS truthiness of an optional string: absent and `""` are falsy. -/
def strTruthy : Option String → Bool
  | some s => !(s == "")
  | none => false

abbrev SlotMap := List (Nat × AccSlot)

def getSlot : SlotMap → Nat → Option AccSlot
  | [], _ => none
  | (k, v) :: rest, i => if k = i then some v else getSlot rest i

def setSlot : SlotMap → Nat → AccSlot → SlotMap
  | [], i, a => [(i, a)]
  | (k, v) :: rest, i, a => if k = i then (i, a) :: rest else (k, v) :: setSlot rest i a

/-- `if (!accumulatedToolCalls[index]) accumulatedToolCalls[index] = x7b…x7d`. -/
def getOrFresh (slots : SlotMap) (idx : Nat) : AccSlot :=
  match getSlot slots idx with
  | some a => a
  | none => freshSlot

/-- `if (toolCallDelta.id) accumulated.id = toolCallDelta.id`. -/
def applyId (acc : AccSlot) : Option String → AccSlot
  | some s => if s == "" then acc else { acc with id := some s }
  | none => acc

/-- `if (toolCallDelta.function.name) accumulated.function.name = …`. -/
def applyName (acc : AccSlot) : Option String → AccSlot
  | some n => if n == "" then acc else { acc with name := some n }
  | none => acc

/-- `if (toolCallDelta.function.arguments) accumulated.function.arguments += …`. -/
def applyArgs (acc : AccSlot) : Option String → AccSlot
  | some a => if a == "" then acc else { acc with arguments := acc.arguments ++ a }
  | none => acc

/-- `if (toolCallDelta.function) x7b … x7d`. -/
def applyFunction (acc : AccSlot) : Option FunctionDelta → AccSlot
  | none => acc
  | some f => applyArgs (applyName acc f.name) f.arguments

/-- `if (toolCallDelta.extra_content) accumulated.extra_content = …`. -/
def applyExtra (acc : AccSlot) : Option ExtraContent → AccSlot
  | some ec => { acc with extra_content := some ec }
  | none => acc

/-- Merge one fragment into a slot, in source order: id, function, extra_content. -/
def mergeDelta (acc : AccSlot) (d : ToolCallDelta) : AccSlot :=
  applyExtra (applyFunction (applyId acc d.id) d.function) d.extra_content

/-- `extra_content?.google?.thought_signature`. -/
def ecSig : Option ExtraContent → Option String
  | some ec =>
    match ec.google with
    | some g => g.thought_signature
    | none => none
  | none => none

def sigOf (acc : AccSlot) : Option String := ecSig acc.extra_content

/-- `signaturesMap.set(id, x7b signature, timestamp x7d)`: overwrite in place
or append. -/
def setSig : SigMap → String → SigRecord → SigMap
  | [], i, r => [(i, r)]
  | (k, v) :: rest, i, r => if k = i then (i, r) :: rest else (k, v) :: setSig rest i r

structure StreamState where
  slots : SlotMap
  sigs : SigMap
deriving DecidableEq

/-- Process one tool-call fragment: skip when `index` is undefined, else merge
into the slot and, when the slot now has a truthy id and a truthy signature,
commit the pair with the current timestamp. -/
def processToolCallDelta (now : Int) (st : StreamState) (d : ToolCallDelta) : StreamState :=
  match d.index with
  | none => st
  | some idx =>
    let acc := mergeDelta (getOrFresh st.slots idx) d
    let sigs :=
      match acc.id, sigOf acc with
      | some i, some s => if (i == "") || (s == "") then st.sigs else setSig st.sigs i ⟨s, now⟩
      | _, _ => st.sigs
    StreamState.mk (setSlot st.slots idx acc) sigs

/-- `if (!delta?.tool_calls) continue` then the fragment loop. -/
def processChoice (now : Int) (st : StreamState) (c : Choice) : StreamState :=
  match c.delta with
  | none => st
  | some d =>
    match d.tool_calls with
    | none => st
    | some tcs => tcs.foldl (processToolCallDelta now) st

/-- `chunk.choices || []`. -/
def choicesOf (ch : Chunk) : List Choice :=
  match ch.choices with
  | some cs => cs
  | none => []

def processChunk (now : Int) (st : StreamState) (ch : Chunk) : StreamState :=
  (choicesOf ch).foldl (processChoice now) st

def extractSignaturesFromStreamChunks (now : Int) (chunks : List Chunk)
    (st : StreamState) : StreamState :=
  chunks.foldl (processChunk now) st

def slotArgs (slots : SlotMap) (idx : Nat) : String := (getOrFresh slots idx).arguments

def slotId (slots : SlotMap) (idx : Nat) : Option String := (getOrFresh slots idx).id

def slotSig (slots : SlotMap) (idx : Nat) : Option String := sigOf (getOrFresh slots idx)

theorem applyId_arguments (acc : AccSlot) : ∀ i, (applyId acc i).arguments = acc.arguments
  | none => rfl
  | some s => by simp only [ applyId]; split <;> rfl

theorem applyId_extra (acc : AccSlot) : ∀ i, (applyId acc i).extra_content = acc.extra_content
  | none => rfl
  | some s => by simp only [ applyId]; split <;> rfl

theorem applyName_arguments (acc : AccSlot) : ∀ i, (applyName acc i).arguments = acc.arguments
  | none => rfl
  | some n => by simp only [ applyName]; split <;> rfl

theorem applyName_id (acc : AccSlot) : ∀ i, (applyName acc i).id = acc.id
  | none => rfl
  | some n => by simp only [ applyName]; split <;> rfl

theorem applyName_extra (acc : AccSlot) : ∀ i, (applyName acc i).extra_content = acc.extra_content
  | none => rfl
  | some n => by simp only [ applyName]; split <;> rfl

theorem applyArgs_id (acc : AccSlot) : ∀ i, (applyArgs acc i).id = acc.id
  | none => rfl
  | some a => by simp only [ applyArgs]; split <;> rfl

theorem applyArgs_extra (acc : AccSlot) : ∀ i, (applyArgs acc i).extra_content = acc.extra_content
  | none => rfl
  | some a => by simp only [ applyArgs]; split <;> rfl

theorem applyArgs_arguments (acc : AccSlot) :
    ∀ i, ∃ t, (applyArgs acc i).arguments = acc.arguments ++ t
  | none => ⟨"", (String.append_empty _).symm⟩
  | some a => by
    by_cases h : (a == "") = true
    · exact ⟨"", by simp [applyArgs, h, String.append_empty]⟩
    · exact ⟨a, by simp [applyArgs, h]⟩

theorem applyExtra_id (acc : AccSlot) : ∀ i, (applyExtra acc i).id = acc.id
  | none => rfl
  | some _ => rfl

theorem applyExtra_arguments (acc : AccSlot) : ∀ i, (applyExtra acc i).arguments = acc.arguments
  | none => rfl
  | some _ => rfl

theorem applyFunction_id (acc : AccSlot) : ∀ i, (applyFunction acc i).id = acc.id
  | none => rfl
  | some f => by
    show (applyArgs (applyName acc f.name) f.arguments).id = acc.id
    rw [applyArgs_id, applyName_id]

theorem applyFunction_extra (acc : AccSlot) :
    ∀ i, (applyFunction acc i).extra_content = acc.extra_content
  | none => rfl
  | some f => by
    show (applyArgs (applyName acc f.name) f.arguments).extra_content = acc.extra_content
    rw [applyArgs_extra, applyName_extra]

theorem applyFunction_arguments (acc : AccSlot) :
    ∀ i, ∃ t, (applyFunction acc i).arguments = acc.arguments ++ t
  | none => ⟨"", (String.append_empty _).symm⟩
  | some f => by
    obtain ⟨t, ht⟩ := applyArgs_arguments (applyName acc f.name) f.arguments
    refine ⟨t, ?_⟩
    show (applyArgs (applyName acc f.name) f.arguments).arguments = acc.arguments ++ t
    rw [ht, applyName_arguments]

theorem applyId_id_cases (acc : AccSlot) : ∀ i,
    (applyId acc i).id = acc.id ∨
      ∃ s, i = some s ∧ (s == "") = false ∧ (applyId acc i).id = some s
  | none => Or.inl rfl
  | some s => by
    by_cases h : (s == "") = true
    · left
      simp [applyId, h]
    · right
      refine ⟨s, rfl, by simpa using h, ?_⟩
      simp [applyId, h]

theorem applyId_id_truthy (acc : AccSlot) : ∀ i, strTruthy acc.id = true →
    strTruthy (applyId acc i).id = true
  | none, h => h
  | some s, h => by
    by_cases hs : (s == "") = true
    · simpa [applyId, hs] using h
    · simp [applyId, hs, strTruthy]

theorem mergeDelta_id_eq_applyId (acc : AccSlot) (d : ToolCallDelta) :
    (mergeDelta acc d).id = (applyId acc d.id).id := by
  unfold mergeDelta
  rw [applyExtra_id, applyFunction_id]

theorem mergeDelta_id_cases (acc : AccSlot) (d : ToolCallDelta) :
    (mergeDelta acc d).id = acc.id ∨
      ∃ s, d.id = some s ∧ (s == "") = false ∧ (mergeDelta acc d).id = some s := by
  rcases applyId_id_cases acc d.id with h | ⟨s, h1, h2, h3⟩
  · left
    rw [mergeDelta_id_eq_applyId, h]
  · right
    exact ⟨s, h1, h2, by rw [mergeDelta_id_eq_applyId, h3]⟩

theorem mergeDelta_id_truthy (acc : AccSlot) (d : ToolCallDelta)
    (h : strTruthy acc.id = true) : strTruthy (mergeDelta acc d).id = true := by
  rw [mergeDelta_id_eq_applyId]
  exact applyId_id_truthy acc d.id h

theorem mergeDelta_arguments (acc : AccSlot) (d : ToolCallDelta) :
    ∃ t, (mergeDelta acc d).arguments = acc.arguments ++ t := by
  obtain ⟨t, ht⟩ := applyFunction_arguments (applyId acc d.id) d.function
  refine ⟨t, ?_⟩
  unfold mergeDelta
  rw [applyExtra_arguments, ht, applyId_arguments]

theorem mergeDelta_extra_some (acc : AccSlot) (d : ToolCallDelta) (ec : ExtraContent)
    (h : d.extra_content = some ec) : (mergeDelta acc d).extra_content = some ec := by
  unfold mergeDelta
  rw [h]
  rfl

theorem mergeDelta_extra_none (acc : AccSlot) (d : ToolCallDelta)
    (h : d.extra_content = none) : sigOf (mergeDelta acc d) = sigOf acc := by
  unfold mergeDelta sigOf
  rw [h]
  show ecSig (applyFunction (applyId acc d.id) d.function).extra_content = ecSig acc.extra_content
  rw [applyFunction_extra, applyId_extra]

theorem getSlot_setSlot_self : ∀ (l : SlotMap) (i : Nat) (a : AccSlot),
    getSlot (setSlot l i a) i = some a
  | [], i, a => by simp [setSlot, getSlot]
  | (k, v) :: rest, i, a => by
    by_cases h : k = i
    · simp [setSlot, getSlot, h]
    · simp [setSlot, getSlot, h, getSlot_setSlot_self rest i a]

theorem getSlot_setSlot_ne : ∀ (l : SlotMap) (i j : Nat) (a : AccSlot), i ≠ j →
    getSlot (setSlot l i a) j = getSlot l j
  | [], i, j, a, h => by simp [setSlot, getSlot, h]
  | (k, v) :: rest, i, j, a, h => by
    by_cases hk : k = i
    · subst hk
      simp [setSlot, getSlot, h]
    · simp [setSlot, getSlot, hk, getSlot_setSlot_ne rest i j a h]

theorem getOrFresh_setSlot_self (l : SlotMap) (i : Nat) (a : AccSlot) :
    getOrFresh (setSlot l i a) i = a := by
  unfold getOrFresh
  rw [getSlot_setSlot_self]

theorem getOrFresh_setSlot_ne (l : SlotMap) (i j : Nat) (a : AccSlot) (h : i ≠ j) :
    getOrFresh (setSlot l i a) j = getOrFresh l j := by
  unfold getOrFresh
  rw [getSlot_setSlot_ne l i j a h]

/-- The per-index evolution invariant over one request. -/
def slotEvolves (sl sl' : SlotMap) : Prop :=
  ∀ idx, (∃ t, slotArgs sl' idx = slotArgs sl idx ++ t) ∧
    (strTruthy (slotId sl idx) = true → strTruthy (slotId sl' idx) = true)

theorem slotEvolves_refl (sl : SlotMap) : slotEvolves sl sl :=
  fun _ => ⟨⟨"", (String.append_empty _).symm⟩, fun h => h⟩

theorem slotEvolves_trans {a b c : SlotMap} (h1 : slotEvolves a b) (h2 : slotEvolves b c) :
    slotEvolves a c := by
  intro idx
  obtain ⟨⟨t1, ht1⟩, hid1⟩ := h1 idx
  obtain ⟨⟨t2, ht2⟩, hid2⟩ := h2 idx
  exact ⟨⟨t1 ++ t2, by rw [ht2, ht1, String.append_assoc]⟩, fun h => hid2 (hid1 h)⟩

theorem processToolCallDelta_slots_none (now : Int) (st : StreamState) (d : ToolCallDelta)
    (h : d.index = none) : processToolCallDelta now st d = st := by
  unfold processToolCallDelta
  rw [h]

theorem processToolCallDelta_slots_some (now : Int) (st : StreamState) (d : ToolCallDelta)
    (idx : Nat) (h : d.index = some idx) :
    (processToolCallDelta now st d).slots =
      setSlot st.slots idx (mergeDelta (getOrFresh st.slots idx) d) := by
  unfold processToolCallDelta
  rw [h]

theorem slotEvolves_step (now : Int) (st : StreamState) (d : ToolCallDelta) :
    slotEvolves st.slots (processToolCallDelta now st d).slots := by
  intro idx
  cases h : d.index with
  | none =>
    rw [processToolCallDelta_slots_none now st d h]
    exact slotEvolves_refl st.slots idx
  | some j =>
    rw [processToolCallDelta_slots_some now st d j h]
    by_cases hij : idx = j
    · subst hij
      refine ⟨?_, ?_⟩
      · obtain ⟨t, ht⟩ := mergeDelta_arguments (getOrFresh st.slots idx) d
        refine ⟨t, ?_⟩
        unfold slotArgs
        rw [getOrFresh_setSlot_self]
        exact ht
      · intro htr
        unfold slotId at htr ⊢
        rw [getOrFresh_setSlot_self]
        exact mergeDelta_id_truthy (getOrFresh st.slots idx) d htr
    · have hji : j ≠ idx := fun hh => hij hh.symm
      refine ⟨⟨"", ?_⟩, ?_⟩
      · unfold slotArgs
        rw [getOrFresh_setSlot_ne _ _ _ _ hji, String.append_empty]
      · intro htr
        unfold slotId at htr ⊢
        rw [getOrFresh_setSlot_ne _ _ _ _ hji]
        exact htr

theorem slotEvolves_foldl {α : Type} (f : StreamState → α → StreamState)
    (hf : ∀ (st : StreamState) (x : α), slotEvolves st.slots (f st x).slots) :
    ∀ (l : List α) (st : StreamState), slotEvolves st.slots (l.foldl f st).slots
  | [], _ => slotEvolves_refl _
  | x :: xs, st => slotEvolves_trans (hf st x) (slotEvolves_foldl f hf xs (f st x))

theorem slotEvolves_processChoice (now : Int) (st : StreamState) (c : Choice) :
    slotEvolves st.slots (processChoice now st c).slots := by
  obtain ⟨dlt⟩ := c
  cases dlt with
  | none => exact slotEvolves_refl _
  | some d =>
    obtain ⟨tcs⟩ := d
    cases tcs with
    | none => exact slotEvolves_refl _
    | some l => exact slotEvolves_foldl (processToolCallDelta now) (slotEvolves_step now) l st

theorem slotEvolves_processChunk (now : Int) (st : StreamState) (ch : Chunk) :
    slotEvolves st.slots (processChunk now st ch).slots :=
  slotEvolves_foldl (processChoice now) (slotEvolves_processChoice now) (choicesOf ch) st

theorem slotEvolves_extract (now : Int) (chunks : List Chunk) (st : StreamState) :
    slotEvolves st.slots (extractSignaturesFromStreamChunks now chunks st).slots :=
  slotEvolves_foldl (processChunk now) (slotEvolves_processChunk now) chunks st

def sigDelta1 : ToolCallDelta :=
  ⟨some 0, some "call_1", none, some ⟨some ⟨some "sig_abc"⟩⟩⟩

def sigDelta2 : ToolCallDelta :=
  ⟨some 0, none, none, some ⟨some ⟨none⟩⟩⟩

def chunkOf (tcs : List ToolCallDelta) : Chunk :=
  ⟨some [⟨some ⟨some tcs⟩⟩]⟩

def streamState0 : StreamState := ⟨[], []⟩

/-- C6 counterexample: the claim says the slot's token, once set, is never
cleared by a later event.  In the code, every event carrying an
`extra_content` object replaces the slot's `extra_content` wholesale, so an
event whose `extra_content` holds a google object without a
`thought_signature` clears a previously accumulated token: after the first
chunk the slot at index 0 carries the token, after the second it carries
none. -/
theorem streamToken_cleared_counterexample :
    slotSig (extractSignaturesFromStreamChunks 0 [chunkOf [sigDelta1]] streamState0).slots 0 =
      some "sig_abc" ∧
    slotSig (extractSignaturesFromStreamChunks 0
      [chunkOf [sigDelta1], chunkOf [sigDelta2]] streamState0).slots 0 = none := by
  constructor
  · rfl
  · rfl

/-- C6 (amended): within one request, for every sequence of streaming chunks
and every tool-call index, the accumulator slot's arguments string is
append-only, and its id, once a non-empty string, stays non-empty and is only
ever replaced when a later event carries a non-empty id.  The
thought-signature token, however, is not guarded like the id: an event with no
`extra_content` leaves the token unchanged, but every event that carries an
`extra_content` object replaces the slot's `extra_content` (hence the token)
wholesale — even clearing it when the new object holds no signature. -/
theorem streamAccum_invariants :
    (∀ (now : Int) (chunks : List Chunk) (st : StreamState) (idx : Nat),
      ∃ t, slotArgs (extractSignaturesFromStreamChunks now chunks st).slots idx =
        slotArgs st.slots idx ++ t) ∧
    (∀ (now : Int) (chunks : List Chunk) (st : StreamState) (idx : Nat),
      strTruthy (slotId st.slots idx) = true →
      strTruthy (slotId (extractSignaturesFromStreamChunks now chunks st).slots idx) = true) ∧
    (∀ (acc : AccSlot) (d : ToolCallDelta),
      (mergeDelta acc d).id = acc.id ∨
        ∃ s, d.id = some s ∧ (s == "") = false ∧ (mergeDelta acc d).id = some s) ∧
    (∀ (acc : AccSlot) (d : ToolCallDelta), d.extra_content = none →
      sigOf (mergeDelta acc d) = sigOf acc) ∧
    (∀ (acc : AccSlot) (d : ToolCallDelta) (ec : ExtraContent), d.extra_content = some ec →
      (mergeDelta acc d).extra_content = some ec) :=
  ⟨fun now chunks st idx => (slotEvolves_extract now chunks st idx).1,
   fun now chunks st idx h => (slotEvolves_extract now chunks st idx).2 h,
   fun acc d => mergeDelta_id_cases acc d,
   fun acc d h => mergeDelta_extra_none acc d h,
   fun acc d ec h => mergeDelta_extra_some acc d ec h⟩

def streamStateW : StreamState := ⟨[(0, ⟨some "call_9", none, "a", none⟩)], []⟩

/-- C6 witness: a slot whose id is already the non-empty string "call_9" still
has a truthy id after an id-less event is processed. -/
theorem streamAccum_invariants_witness :
    strTruthy (slotId streamStateW.slots 0) = true ∧
    strTruthy (slotId (extractSignaturesFromStreamChunks 0 [chunkOf [sigDelta2]]
      streamStateW).slots 0) = true :=
  ⟨by decide, streamAccum_invariants.2.1 0 [chunkOf [sigDelta2]] streamStateW 0 (by decide)⟩

/-!
`injectThoughtSignatures` of src/unnamed/part_000 (lines 283-323): before a
request is forwarded upstream, every assistant message carrying tool calls has
its first tool call rewritten to carry
`extra_content.google.thought_signature` — the signature stored for that tool
call's id in the conversation's signature map, or the fixed sentinel when no
record (or an empty one) is stored.  The JS object spread `...toolCall` is
modelled by `spreadFields`; a null element makes the source throw (reading
`.id` of null), modelled as `none`.
-/

def sentinelSignature : String := "skip_thought_signature_validator"

def getSig : SigMap → String → Option SigRecord
  | [], _ => none
  | (k, v) :: rest, i => if k = i then some v else getSig rest i

def getSigMap : SigStore → String → Option SigMap
  | [], _ => none
  | (k, v) :: rest, i => if k = i then some v else getSigMap rest i

/-- `conversationSignatures.get(conversationId) || new Map()`. -/
def convSigs (store : SigStore) (cid : String) : SigMap :=
  match getSigMap store cid with
  | some m => m
  | none => []

/-- Own enumerable properties contributed by `...toolCall`: an object spreads
its fields, an array its decimal-indexed elements, a string its indexed
characters, and every other value spreads to nothing. -/
def strIndexed (start : Nat) : List Char → JFields
  | [] => .nil
  | c :: cs => .cons (toString start) (.str (String.singleton c)) (strIndexed (start + 1) cs)

def spreadFields : Json → JFields
  | .obj fs => fs
  | .arr xs => indexedVals (fun v => v) 0 xs
  | .str s => strIndexed 0 s.data
  | _ => .nil

/-- `signaturesMap.get(toolCall.id)`: only a string id can hit the map. -/
def sigLookup (m : SigMap) : Json → Option SigRecord
  | .obj fs =>
    match getKey fs "id" with
    | some (.str s) => getSig m s
    | _ => none
  | _ => none

/-- `signatureData?.signature || 'skip_thought_signature_validator'`. -/
def signatureFor (m : SigMap) (tc : Json) : String :=
  match sigLookup m tc with
  | some r => if r.signature == "" then sentinelSignature else r.signature
  | none => sentinelSignature

/-- One element of the `msg.tool_calls.map((toolCall, idx) => …)` callback. -/
def injectToolCall (m : SigMap) (idx : Nat) (tc : Json) : Option Json :=
  match tc with
  | .null => none
  | _ =>
    if idx = 0 then
      some (.obj (setKey (spreadFields tc) "extra_content"
        (.obj (.cons "google" (.obj (.cons "thought_signature"
          (.str (signatureFor m tc)) .nil)) .nil))))
    else some tc

def injectToolCalls (m : SigMap) (idx : Nat) : JList → Option JList
  | .nil => some .nil
  | .cons tc rest =>
    match injectToolCall m idx tc, injectToolCalls m (idx + 1) rest with
    | some tc', some rest' => some (.cons tc' rest')
    | _, _ => none

/-- `if (msg.role !== 'assistant' || !msg.tool_calls) return msg` then the
tool-call map and `x7b ...msg, tool_calls x7d`. -/
def injectMessage (m : SigMap) (msg : Json) : Option Json :=
  match msg with
  | .null => none
  | .obj fs =>
    if getKey fs "role" = some (.str "assistant") then
      match getKey fs "tool_calls" with
      | some tcv =>
        if jsTruthy tcv then
          match tcv with
          | .arr tcs =>
            (injectToolCalls m 0 tcs).map (fun tcs' => .obj (setKey fs "tool_calls" (.arr tcs')))
          | _ => none
        else some (.obj fs)
      | none => some (.obj fs)
    else some (.obj fs)
  | other => some other

def injectMessages (m : SigMap) : JList → Option JList
  | .nil => some .nil
  | .cons msg rest =>
    match injectMessage m msg, injectMessages m rest with
    | some msg', some rest' => some (.cons msg' rest')
    | _, _ => none

/-- `if (!requestData?.messages) return requestData` then the message map and
`x7b ...requestData, messages x7d`. -/
def injectThoughtSignatures (requestData : Json) (cid : String) (store : SigStore) : Option Json :=
  match requestData with
  | .obj fs =>
    match getKey fs "messages" with
    | some msgs =>
      if jsTruthy msgs then
        match msgs with
        | .arr ms =>
          (injectMessages (convSigs store cid) ms).map
            (fun ms' => .obj (setKey fs "messages" (.arr ms')))
        | _ => none
      else some (.obj fs)
    | none => some (.obj fs)
  | other => some other

/-- A tool-call list with no null element (a null would make the source throw
before any injection decision). -/
def noNull : JList → Bool
  | .nil => true
  | .cons x xs => !(x == Json.null) && noNull xs

theorem injectToolCall_ne_null (m : SigMap) (idx : Nat) (tc : Json) (h : tc ≠ .null) :
    injectToolCall m idx tc =
      if idx = 0 then
        some (.obj (setKey (spreadFields tc) "extra_content"
          (.obj (.cons "google" (.obj (.cons "thought_signature"
            (.str (signatureFor m tc)) .nil)) .nil))))
      else some tc := by
  cases tc
  · exact absurd rfl h
  · rfl
  · rfl
  · rfl
  · rfl
  · rfl

theorem injectToolCalls_tail (m : SigMap) : ∀ (tcs : JList) (k : Nat), k ≠ 0 →
    noNull tcs = true → injectToolCalls m k tcs = some tcs
  | .nil, _, _, _ => rfl
  | .cons x xs, k, hk, hn => by
    simp only [noNull, Bool.and_eq_true] at hn
    have hx : x ≠ Json.null := by
      intro hh
      rw [hh] at hn
      simp at hn
    rw [injectToolCalls, injectToolCall_ne_null m k x hx, if_neg hk,
      injectToolCalls_tail m xs (k + 1) (Nat.succ_ne_zero k) hn.2]

/-- C1: for every request body with a messages array, the injected token goes
only to the first tool call of an assistant message: the body's messages are
mapped element-wise (first conjunct); an assistant message whose tool-call
list is `tc0 :: tcs` is rewritten so that `tc0` carries
`extra_content.google.thought_signature` with the looked-up token while every
element of `tcs` is returned unchanged (second conjunct); the token is the
stored signature when a non-empty record exists for the first call's id and
the fixed sentinel when no record is stored (third and fourth conjuncts); a
non-assistant message is returned unchanged (fifth conjunct). -/
theorem injectThoughtSignatures_first_only
    (store : SigStore) (cid : String) (rf : JFields) (ms : JList) (m : SigMap)
    (hm : convSigs store cid = m)
    (hmsgs : getKey rf "messages" = some (.arr ms)) :
    injectThoughtSignatures (.obj rf) cid store =
      (injectMessages m ms).map (fun ms' => .obj (setKey rf "messages" (.arr ms'))) ∧
    (∀ (fs : JFields) (tc0 : Json) (tcs : JList),
      getKey fs "role" = some (.str "assistant") →
      getKey fs "tool_calls" = some (.arr (.cons tc0 tcs)) →
      tc0 ≠ .null → noNull tcs = true →
      injectMessage m (.obj fs) =
        some (.obj (setKey fs "tool_calls" (.arr (.cons
          (.obj (setKey (spreadFields tc0) "extra_content"
            (.obj (.cons "google" (.obj (.cons "thought_signature"
              (.str (signatureFor m tc0)) .nil)) .nil))))
          tcs))))) ∧
    (∀ (fs : JFields) (s : String) (r : SigRecord),
      getKey fs "id" = some (.str s) → getSig m s = some r → r.signature ≠ "" →
      signatureFor m (.obj fs) = r.signature) ∧
    (∀ (fs : JFields) (s : String),
      getKey fs "id" = some (.str s) → getSig m s = none →
      signatureFor m (.obj fs) = sentinelSignature) ∧
    (∀ (fs : JFields), ¬ (getKey fs "role" = some (.str "assistant")) →
      injectMessage m (.obj fs) = some (.obj fs)) := by
  refine ⟨?_, ?_, ?_, ?_, ?_⟩
  · simp [injectThoughtSignatures, hmsgs, hm, jsTruthy]
  · intro fs tc0 tcs hrole htc hnn0 hnnt
    simp only [injectMessage]
    rw [if_pos hrole, htc]
    simp only [jsTruthy, if_true]
    rw [injectToolCalls, injectToolCall_ne_null m 0 tc0 hnn0, if_pos rfl,
      injectToolCalls_tail m tcs 1 one_ne_zero hnnt]
    rfl
  · intro fs s r hid hget hne
    have hl : sigLookup m (.obj fs) = some r := by
      simp only [sigLookup, hid, hget]
    have hb : ¬ ((r.signature == "") = true) := by simpa using hne
    simp only [signatureFor, hl]
    rw [if_neg hb]
  · intro fs s hid hget
    have hl : sigLookup m (.obj fs) = none := by
      simp only [sigLookup, hid, hget]
    simp only [signatureFor, hl]
  · intro fs hrole
    simp only [injectMessage]
    rw [if_neg hrole]

def toolA : Json := .obj (jf [("id", .str "call_A")])

def toolB : Json := .obj (jf [("id", .str "call_B")])

def msgAsst : Json := .obj (jf [("role", .str "assistant"),
  ("tool_calls", .arr (jl [toolA, toolB]))])

def reqC1 : JFields := jf [("messages", .arr (jl [msgAsst]))]

def storeC1 : SigStore := [("conv1", [("call_A", ⟨"sigA", 0⟩)])]

def mapC1 : SigMap := [("call_A", ⟨"sigA", 0⟩)]

/-- C1 witness: a concrete request with one assistant message carrying two
tool calls, against a store holding a signature for the first call's id. -/
theorem injectThoughtSignatures_first_only_witness :
    injectThoughtSignatures (.obj reqC1) "conv1" storeC1 =
      (injectMessages mapC1 (jl [msgAsst])).map
        (fun ms' => .obj (setKey reqC1 "messages" (.arr ms'))) :=
  (injectThoughtSignatures_first_only storeC1 "conv1" reqC1 (jl [msgAsst]) mapC1
    (by decide) (by decide)).1

/-!
`convertGeminiErrorToOpenAI` of src/unnamed/part_000 (lines 256-280).  The
body is parsed (`parsed = none` models a `JSON.parse` throw, caught and
answered with the raw body); a parsed object whose truthy `error` property has
`typeof … === 'object'` is rewritten to
`JSON.stringify(x7b error: x7b message, type, code x7d x7d)` with JS `||`
defaults; everything else is returned as-is.  `stringify` is JSON.stringify
on the embedded values: no whitespace, insertion order, standard string
escapes.
-/

def hexDigit (n : Nat) : Char :=
  if n < 10 then Char.ofNat (48 + n) else Char.ofNat (87 + n)

def escapeChar (c : Char) : String :=
  if c = '"' then "\\\""
  else if c = '\\' then "\\\\"
  else if c = '\n' then "\\n"
  else if c = '\r' then "\\r"
  else if c = '\t' then "\\t"
  else if c.toNat = 8 then "\\b"
  else if c.toNat = 12 then "\\f"
  else if c.toNat < 32 then
    "\\u00" ++ String.singleton (hexDigit (c.toNat / 16)) ++
      String.singleton (hexDigit (c.toNat % 16))
  else String.singleton c

def jsonEscape (s : String) : String :=
  "\"" ++ String.join (s.data.map escapeChar) ++ "\""

mutual
def stringify : Json → String
  | .null => "null"
  | .bool b => if b then "true" else "false"
  | .num n => toString n
  | .str s => jsonEscape s
  | .arr xs => "[" ++ stringifyL xs ++ "]"
  | .obj fs => "\x7b" ++ stringifyF fs ++ "\x7d"
def stringifyL : JList → String
  | .nil => ""
  | .cons x xs =>
    stringify x ++ (match xs with | .nil => "" | _ => ",") ++ stringifyL xs
def stringifyF : JFields → String
  | .nil => ""
  | .cons k v rest =>
    jsonEscape k ++ ":" ++ stringify v ++
      (match rest with | .nil => "" | _ => ",") ++ stringifyF rest
end

/-- `typeof x === 'object'` for a JSON value. -/
def isObjType : Json → Bool
  | .obj _ => true
  | .arr _ => true
  | .null => true
  | _ => false

/-- `geminiError.k`: named property access on the error value. -/
def errProp : Json → String → Option Json
  | .obj fs, k => getKey fs k
  | _, _ => none

/-- JS `x || d` on a possibly-absent property. -/
def orDefault (v : Option Json) (d : Json) : Json :=
  match v with
  | some x => if jsTruthy x then x else d
  | none => d

def convertGeminiErrorToOpenAI (raw : String) (parsed : Option Json) : String :=
  match parsed with
  | none => raw
  | some (.obj fs) =>
    match getKey fs "error" with
    | some e =>
      if jsTruthy e && isObjType e then
        stringify (.obj (.cons "error" (.obj (
          .cons "message" (orDefault (errProp e "message") (.str "Unknown error")) (
          .cons "type" (orDefault (errProp e "status") (.str "api_error")) (
          .cons "code" (orDefault (errProp e "code") .null) .nil)))) .nil))
      else raw
    | none => raw
  | some _ => raw

def geminiErr0 : Json := .obj (jf [("error", .obj (jf
  [("code", .num 0), ("message", .str "bad"), ("status", .str "S")]))])

/-- C9 counterexample: the claim says the upstream `code` is passed through.
The source computes `geminiError.code || null`, so the falsy code 0 is
replaced by null: the upstream error carries `"code":0` but the translated
body carries `"code":null`. -/
theorem convertGeminiError_code_not_passed_through :
    convertGeminiErrorToOpenAI "raw" (some geminiErr0) =
      "\x7b\"error\":\x7b\"message\":\"bad\",\"type\":\"S\",\"code\":null\x7d\x7d" ∧
    errProp (.obj (jf [("code", .num 0), ("message", .str "bad"),
      ("status", .str "S")])) "code" = some (.num 0) := by
  constructor
  · rfl
  · rfl

def geminiErr400 : Json := .obj (jf [("error", .obj (jf
  [("code", .num 400), ("message", .str "bad"), ("status", .str "INVALID_ARGUMENT")]))])

/-- C9 (amended): a parse failure, a parsed non-object, or a parsed object
without a truthy object-typed `error` property is returned unchanged; a
Gemini-shaped error is rewritten to `x7b error: x7b message, type, code x7d x7d`
where each field goes through a JS `||` default — message falls back to
"Unknown error", type to "api_error", and code to null, so a falsy upstream
code (such as 0) is replaced by null rather than passed through.  The claim's
concrete 400 example translates as stated. -/
theorem convertGeminiErrorToOpenAI_spec :
    (∀ raw, convertGeminiErrorToOpenAI raw none = raw) ∧
    (∀ raw (fs : JFields), getKey fs "error" = none →
      convertGeminiErrorToOpenAI raw (some (.obj fs)) = raw) ∧
    (∀ raw (j : Json), (∀ fs, j ≠ .obj fs) →
      convertGeminiErrorToOpenAI raw (some j) = raw) ∧
    (∀ raw (fs : JFields) (e : Json), getKey fs "error" = some e →
      (jsTruthy e && isObjType e) = true →
      convertGeminiErrorToOpenAI raw (some (.obj fs)) =
        stringify (.obj (.cons "error" (.obj (
          .cons "message" (orDefault (errProp e "message") (.str "Unknown error")) (
          .cons "type" (orDefault (errProp e "status") (.str "api_error")) (
          .cons "code" (orDefault (errProp e "code") .null) .nil)))) .nil))) ∧
    convertGeminiErrorToOpenAI "irrelevant" (some geminiErr400) =
      "\x7b\"error\":\x7b\"message\":\"bad\",\"type\":\"INVALID_ARGUMENT\",\"code\":400\x7d\x7d" := by
  refine ⟨fun raw => rfl, ?_, ?_, ?_, by rfl⟩
  · intro raw fs h
    simp only [convertGeminiErrorToOpenAI, h]
  · intro raw j hj
    cases j with
    | null => rfl
    | bool b => rfl
    | num n => rfl
    | str s => rfl
    | arr xs => rfl
    | obj fs => exact absurd rfl (hj fs)
  · intro raw fs e he htr
    simp only [convertGeminiErrorToOpenAI, he]
    rw [if_pos htr]

/-- C9 witness: a parsed object without an `error` key is returned as-is. -/
theorem convertGeminiErrorToOpenAI_spec_witness :
    convertGeminiErrorToOpenAI "plain body" (some (.obj (jf [("ok", .bool true)]))) =
      "plain body" :=
  convertGeminiErrorToOpenAI_spec.2.1 "plain body" (jf [("ok", .bool true)]) (by decide)
